import Mathlib

/-!
Verification development for the repo-archiver terminal tool (src/main.rs).

The Rust source is shallowly embedded below.  Strings are modelled as
`List Char`; byte-level behaviour of Rust string slicing (`split_at`,
`&s[..10]`) is modelled through `Char.utf8Size`, so that the panics of
byte-index slicing at non-boundaries are visible as explicit outcomes.
Machine integers (`u32`) are modelled as `Nat` with an explicit `< 2 ^ 32`
bound where the Rust parser would overflow.  Wall-clock based rendering
state (`spinner_tick`, `last_tick`) and the drawing functions (`ui`,
`render_modal`) are pure presentation and are not part of any claim; they
are omitted from the `App` embedding.  The mpsc channel between the
worker thread spawned by `start_archiving` and the foreground loop of
`run_app` is modelled as an explicit FIFO queue in `LoopState`: the
worker's complete (deterministic) event trace is appended on spawn, and a
`recv` step consumes one delivered event, which covers every real
interleaving of event arrival and key handling.
-/

/-! ### Characters and digit strings -/

/-- ASCII digit test, as used by Rust's `u32::from_str`. -/
def isDig (c : Char) : Bool := 48 ≤ c.toNat && c.toNat ≤ 57

/-- Numeric value of an ASCII digit. -/
def digitVal (c : Char) : Nat := c.toNat - 48

/-- Value of a digit string, most significant digit first (the accumulator
of Rust's integer `from_str`). -/
def digitsToNat (l : List Char) : Nat := l.foldl (fun acc c => acc * 10 + digitVal c) 0

/-- The Unicode White_Space property, as tested by Rust `char::is_whitespace`
(used by `str::trim` in `Age::parse`). -/
def isRustWhitespace (c : Char) : Bool :=
  let n := c.toNat
  (9 ≤ n && n ≤ 13) || n == 32 || n == 133 || n == 160 || n == 5760 ||
    (8192 ≤ n && n ≤ 8202) || n == 8232 || n == 8233 || n == 8239 || n == 8287 || n == 12288

/-- Rust `str::trim`. -/
def rustTrim (s : List Char) : List Char :=
  ((s.dropWhile isRustWhitespace).reverse.dropWhile isRustWhitespace).reverse

/-- Rust `str::to_lowercase`, restricted to its ASCII action.  The full
Unicode lowercasing differs only on non-ASCII cased letters, which are
fixed points of this function; no claim depends on those (the only
non-ASCII character used below, '€', is a fixed point of both). -/
def rustToLower (c : Char) : Char :=
  if 65 ≤ c.toNat && c.toNat ≤ 90 then Char.ofNat (c.toNat + 32) else c

/-- Rust unsigned `from_str` accepts one optional leading `+`. -/
def stripPlus (s : List Char) : List Char :=
  match s with
  | [] => []
  | c :: rest => if c = '+' then rest else c :: rest

/-- Rust `u32::from_str`: optional leading `+`, one or more ASCII digits,
value must fit in 32 bits (`PosOverflow` is an error). -/
def parseU32 (s : List Char) : Option Nat :=
  let ds := stripPlus s
  if ds ≠ [] ∧ ds.all isDig = true ∧ digitsToNat ds < 2 ^ 32 then some (digitsToNat ds)
  else none

/-- Fueled decimal printer; the fuel (strictly more than the digit count)
keeps the recursion structural so that the kernel can evaluate it. -/
def natDigitsAux : Nat → Nat → List Char
  | 0, _ => []
  | fuel + 1, n =>
    if n < 10 then [Nat.digitChar n]
    else natDigitsAux fuel (n / 10) ++ [Nat.digitChar (n % 10)]

/-- Decimal representation of a `Nat`, as Rust's `Display` for `u32`
(used by the `format!` calls in `Age::display`). -/
def natDigits (n : Nat) : List Char := natDigitsAux (n + 1) n

/-- Lexicographic strict order on `List Char` by code point.  This equals
Rust `str::cmp` (bytewise UTF-8 comparison), because UTF-8 encoding is
order-preserving on code points. -/
def charListLt : List Char → List Char → Bool
  | _, [] => false
  | [], _ :: _ => true
  | a :: as, b :: bs =>
    if a.toNat < b.toNat then true
    else if b.toNat < a.toNat then false
    else charListLt as bs

/-! ### Dates (chrono `NaiveDate`) -/

/-- A calendar date; ordering is lexicographic on (year, month, day),
matching `NaiveDate`'s `Ord`. -/
structure Date where
  year : Int
  month : Nat
  day : Nat
deriving DecidableEq

def isLeapYear (y : Int) : Bool := y % 4 == 0 && (y % 100 != 0 || y % 400 == 0)

/-- Length of month `m` of year `y`; only used for `m` between 1 and 12. -/
def daysInMonth (y : Int) (m : Nat) : Nat :=
  if m = 2 then (if isLeapYear y then 29 else 28)
  else if m = 4 ∨ m = 6 ∨ m = 9 ∨ m = 11 then 30
  else 31

/-- `NaiveDate`'s strict order. -/
def dateLtB (a b : Date) : Bool :=
  if a.year < b.year then true
  else if b.year < a.year then false
  else if a.month < b.month then true
  else if b.month < a.month then false
  else decide (a.day < b.day)

/-- The smallest year chrono's `NaiveDate` represents
(`MIN_YEAR = i32::MIN >> 13`). -/
def chronoMinYear : Int := -262144

/-- The largest year chrono's `NaiveDate` represents
(`MAX_YEAR = i32::MAX >> 13`). -/
def chronoMaxYear : Int := 262143

/-- chrono `NaiveDate::with_year`: keep month and day, change the year;
`none` when the target year is outside chrono's representable range or
the resulting date would be invalid (Feb 29 of a non-leap year). -/
def withYear (d : Date) (y : Int) : Option Date :=
  if chronoMinYear ≤ y ∧ y ≤ chronoMaxYear ∧ d.day ≤ daysInMonth y d.month then
    some ⟨y, d.month, d.day⟩
  else none

/-- chrono `NaiveDate::checked_sub_months(Months::new(m))`: go back `m`
calendar months, clamping the day into the target month; `none` when the
resulting year leaves chrono's representable range.  Lean's `/` and `%`
on `Int` are euclidean, matching chrono's `div_euclid` / `rem_euclid`.
The `Sub<Months>` operator used in `cutoff_date` unwraps this, so `none`
is a panic of the program. -/
def subMonths (d : Date) (m : Nat) : Option Date :=
  let total : Int := d.year * 12 + ((d.month : Int) - 1) - (m : Int)
  let y : Int := total / 12
  let mo : Nat := (total % 12).toNat + 1
  if chronoMinYear ≤ y ∧ y ≤ chronoMaxYear then
    some ⟨y, mo, min d.day (daysInMonth y mo)⟩
  else none

/-- A `Date` whose month and day are within calendar range. -/
def Date.Valid (d : Date) : Prop :=
  1 ≤ d.month ∧ d.month ≤ 12 ∧ 1 ≤ d.day ∧ d.day ≤ daysInMonth d.year d.month

/-! ### `Age` (the age selector's non-interactive path) -/

inductive Age where
  | months (n : Nat)
  | years (n : Nat)
deriving DecidableEq

/-- Outcome of `Age::parse`.  The error messages of the Rust `anyhow`
errors are elided: all claims only distinguish ok / error / panic.
`panic` models the byte-based `s.split_at(s.len() - 1)`, which panics
when the byte before the end of the (trimmed, lowercased) string is not a
UTF-8 char boundary — i.e. whenever the final character occupies more
than one byte. -/
inductive ParseOutcome where
  | ok (a : Age)
  | error
  | panic
deriving DecidableEq

/-- `Age::parse`. -/
def Age.parse (s : List Char) : ParseOutcome :=
  let t := (rustTrim s).map rustToLower
  match t.getLast? with
  | none => ParseOutcome.error
  | some u =>
    if u.utf8Size = 1 then
      match parseU32 t.dropLast with
      | none => ParseOutcome.error
      | some n =>
        if u = 'y' then ParseOutcome.ok (Age.years n)
        else if u = 'm' then ParseOutcome.ok (Age.months n)
        else ParseOutcome.error
    else ParseOutcome.panic

/-- Rust `y as i32` applied to a `u32` value: two's-complement
reinterpretation. -/
def u32AsI32 (n : Nat) : Int :=
  if n < 2 ^ 31 then (n : Int) else (n : Int) - 2 ^ 32

/-- `Age::cutoff_date`, with `Utc::now().date_naive()` passed in as the
`today` parameter.  For years, `today.year() - y as i32` first wraps the
`u32` into `i32`; the subtraction itself is kept exact, which agrees with
the release-build (wrapping) semantics: for a chrono-representable
`today` the wrapped difference is outside chrono's year range exactly
when the exact difference is, so `with_year` returns `None` and the
`unwrap_or(today)` fallback fires either way.  For months,
`today - Months::new(m)` unwraps `checked_sub_months`; `none` models that
panic. -/
def Age.cutoff_date (a : Age) (today : Date) : Option Date :=
  match a with
  | Age.years y => some ((withYear today (today.year - u32AsI32 y)).getD today)
  | Age.months m => subMonths today m

/-- `Age::display`. -/
def Age.display : Age → List Char
  | Age.years y => natDigits y ++ (" year".toList ++ if y = 1 then [] else ['s'])
  | Age.months m => natDigits m ++ (" month".toList ++ if m = 1 then [] else ['s'])

/-! ### `AgePicker` (the interactive stepper) -/

inductive AgeUnit where
  | months
  | years
deriving DecidableEq

structure AgePicker where
  value : Nat
  unit : AgeUnit
deriving DecidableEq

def AgePicker.new : AgePicker := { value := 2, unit := AgeUnit.years }

/-- The `match self.unit { Months => 11, Years => 10 }` bound appearing in
`increment` and `toggle_unit`. -/
def AgeUnit.maxValue : AgeUnit → Nat
  | AgeUnit.months => 11
  | AgeUnit.years => 10

def AgePicker.increment (p : AgePicker) : AgePicker :=
  if p.value < p.unit.maxValue then { p with value := p.value + 1 } else p

def AgePicker.decrement (p : AgePicker) : AgePicker :=
  if 1 < p.value then { p with value := p.value - 1 } else p

def AgeUnit.toggle : AgeUnit → AgeUnit
  | AgeUnit.months => AgeUnit.years
  | AgeUnit.years => AgeUnit.months

def AgePicker.toggle_unit (p : AgePicker) : AgePicker :=
  let u := p.unit.toggle
  if u.maxValue < p.value then { value := u.maxValue, unit := u } else { p with unit := u }

def AgePicker.to_age (p : AgePicker) : Age :=
  match p.unit with
  | AgeUnit.months => Age.months p.value
  | AgeUnit.years => Age.years p.value

/-- The stepper operations reachable from `run_age_picker`'s key handling. -/
inductive StepperOp where
  | inc
  | dec
  | toggle
deriving DecidableEq

def AgePicker.applyOp (p : AgePicker) : StepperOp → AgePicker
  | StepperOp.inc => p.increment
  | StepperOp.dec => p.decrement
  | StepperOp.toggle => p.toggle_unit

def AgePicker.applyOps (p : AgePicker) (ops : List StepperOp) : AgePicker :=
  ops.foldl AgePicker.applyOp p

/-! ### Repositories and `fetch_repos` filtering -/

structure Repo where
  name : List Char
  created_at : List Char
  pushed_at : List Char
  description : Option (List Char)
deriving DecidableEq

/-- The first `n` bytes of a string as Rust `&s[..n]`: `some` of the char
prefix occupying exactly `n` bytes, or `none` when the slice would panic
(string shorter than `n` bytes, or byte `n` not a char boundary). -/
def byteSlicePrefix : List Char → Nat → Option (List Char)
  | _, 0 => some []
  | [], _ + 1 => none
  | c :: rest, n + 1 =>
    if c.utf8Size ≤ n + 1 then (byteSlicePrefix rest (n + 1 - c.utf8Size)).map (c :: ·)
    else none

/-- chrono `scan::number`'s digit consumption, capped at `max` digits:
the longest prefix of at most `max` ASCII digits, and the rest. -/
def scanDigits : Nat → List Char → List Char × List Char
  | 0, l => ([], l)
  | _ + 1, [] => ([], [])
  | max + 1, c :: cs =>
    if isDig c then
      let p := scanDigits max cs
      (c :: p.1, p.2)
    else ([], c :: cs)

/-- Uncapped digit consumption (chrono uses `usize::MAX` as the cap for a
sign-prefixed year). -/
def spanDigits : List Char → List Char × List Char
  | [] => ([], [])
  | c :: cs =>
    if isDig c then
      let p := spanDigits cs
      (c :: p.1, p.2)
    else ([], c :: cs)

/-- One unsigned numeric field of chrono's format parser: skip leading
whitespace, then take one to `max` ASCII digits. -/
def parseNum (max : Nat) (l : List Char) : Option (Nat × List Char) :=
  let p := scanDigits max (l.dropWhile isRustWhitespace)
  if p.1 = [] then none else some (digitsToNat p.1, p.2)

/-- The `%Y` field of chrono's format parser: skip leading whitespace; a
`-` or `+` sign admits arbitrarily many digits, an unsigned year at most
four. -/
def parseYearField (l : List Char) : Option (Int × List Char) :=
  match l.dropWhile isRustWhitespace with
  | [] => none
  | c :: rest =>
    if c = '-' then
      let p := spanDigits rest
      if p.1 = [] then none else some (-(digitsToNat p.1 : Int), p.2)
    else if c = '+' then
      let p := spanDigits rest
      if p.1 = [] then none else some ((digitsToNat p.1 : Int), p.2)
    else
      let p := scanDigits 4 (c :: rest)
      if p.1 = [] then none else some ((digitsToNat p.1 : Int), p.2)

/-- chrono `NaiveDate::parse_from_str(s, "%Y-%m-%d")`: the `%Y` field,
a literal `-`, the `%m` field, a literal `-`, the `%d` field, the end of
the input, then `from_ymd_opt`-style validation (year within chrono's
range, month 1–12, day within the month).  Overflow of chrono's `i64`
digit accumulator cannot arise from the ten-byte slices this is applied
to and is not modelled. -/
def parseDate10 (s : List Char) : Option Date :=
  match parseYearField s with
  | none => none
  | some (y, r1) =>
    match r1 with
    | [] => none
    | c1 :: r2 =>
      if c1 = '-' then
        match parseNum 2 r2 with
        | none => none
        | some (mo, r3) =>
          match r3 with
          | [] => none
          | c2 :: r4 =>
            if c2 = '-' then
              match parseNum 2 r4 with
              | none => none
              | some (dy, r5) =>
                if r5 = [] ∧ chronoMinYear ≤ y ∧ y ≤ chronoMaxYear ∧
                    1 ≤ mo ∧ mo ≤ 12 ∧ 1 ≤ dy ∧ dy ≤ daysInMonth y mo then
                  some ⟨y, mo, dy⟩
                else none
            else none
      else none

/-- The canonical zero-padded `YYYY-MM-DD` shape (four year digits, two
month digits, two day digits, `-` separators) — the shape under which
byte-string order on `created_at` prefixes coincides with date order. -/
def canonicalDate10 : List Char → Bool
  | [y1, y2, y3, y4, s1, m1, m2, s2, d1, d2] =>
    s1 == '-' && s2 == '-' && isDig y1 && isDig y2 && isDig y3 && isDig y4 &&
      isDig m1 && isDig m2 && isDig d1 && isDig d2
  | _ => false

/-- The creation date of a repo as `fetch_repos` reads it:
`NaiveDate::parse_from_str(&r.created_at[..10], "%Y-%m-%d")`. -/
def createdDate (r : Repo) : Option Date :=
  match byteSlicePrefix r.created_at 10 with
  | none => none
  | some created => parseDate10 created

/-- One evaluation of the filter closure in `fetch_repos`.  `none` models
the panic of `&r.created_at[..10]` when the field has fewer than ten
bytes (or no char boundary at byte ten); otherwise `some` of
`parse(created).map(|d| d < cutoff).unwrap_or(false)`. -/
def repoQualifies (cutoff : Date) (r : Repo) : Option Bool :=
  match byteSlicePrefix r.created_at 10 with
  | none => none
  | some created =>
    some (match parseDate10 created with
          | some d => dateLtB d cutoff
          | none => false)

/-- `repoQualifies`, with the panic collapsed to `false` (only used to
state results about panic-free inputs). -/
def qualifiesB (cutoff : Date) (r : Repo) : Bool :=
  match repoQualifies cutoff r with
  | some b => b
  | none => false

/-- The `filter(...).collect()` of `fetch_repos`; `none` when any item
panics. -/
def filterRepos (cutoff : Date) : List Repo → Option (List Repo)
  | [] => some []
  | r :: rest =>
    match repoQualifies cutoff r, filterRepos cutoff rest with
    | some b, some l => some (if b then r :: l else l)
    | _, _ => none

/-- Stable insertion by `created_at` string order.  Rust's
`sort_by(|a, b| a.created_at.cmp(&b.created_at))` is a stable sort; every
stable sort under the same total preorder computes the same list, and a
stable insertion sort is the simplest one. -/
def insertByCreated (r : Repo) : List Repo → List Repo
  | [] => [r]
  | x :: xs =>
    if charListLt x.created_at r.created_at then x :: insertByCreated r xs
    else r :: x :: xs

def sortByCreated : List Repo → List Repo
  | [] => []
  | r :: rest => insertByCreated r (sortByCreated rest)

/-- The pure core of `fetch_repos`, after the `gh repo list` invocation and
JSON decoding: filter by creation date against the cutoff, then sort by
the `created_at` string.  `none` models a panic. -/
def fetch_repos_filter (cutoff : Date) (repos : List Repo) : Option (List Repo) :=
  (filterRepos cutoff repos).map sortByCreated

/-! ### The UI state machine (`App`, `Mode`, `run_app`, `start_archiving`) -/

inductive RepoStatus where
  | idle
  | pending
  | archiving
  | done
  | failed (msg : List Char)
deriving DecidableEq

/-- `matches!(status, RepoStatus::Done | RepoStatus::Failed(_))`. -/
def RepoStatus.isTerminal : RepoStatus → Bool
  | RepoStatus.done => true
  | RepoStatus.failed _ => true
  | _ => false

inductive Mode where
  | selecting
  | confirmModal
  | archiving
  | done
deriving DecidableEq

/-- The `App` struct.  `state : TableState` is modelled by its selected row
`cursor`; `spinner_tick` and `last_tick` only drive the spinner animation
and are omitted. -/
structure App where
  repos : List Repo
  statuses : List RepoStatus
  cursor : Option Nat
  selected : List Bool
  mode : Mode
  dry_run : Bool
  modal_button : Nat
deriving DecidableEq

/-- `App::new`. -/
def App.new (repos : List Repo) (dry_run : Bool) : App :=
  { repos := repos
    statuses := List.replicate repos.length RepoStatus.idle
    cursor := if repos.isEmpty then none else some 0
    selected := List.replicate repos.length false
    mode := Mode.selecting
    dry_run := dry_run
    modal_button := 1 }

/-- `App::next`. -/
def App.next (a : App) : App :=
  if a.repos.isEmpty then a
  else
    let i := match a.cursor with
      | some i => (i + 1) % a.repos.length
      | none => 0
    { a with cursor := some i }

/-- `App::previous`. -/
def App.previous (a : App) : App :=
  if a.repos.isEmpty then a
  else
    let i := match a.cursor with
      | some i => if i = 0 then a.repos.length - 1 else i - 1
      | none => 0
    { a with cursor := some i }

/-- `App::toggle_selection`.  The cursor is in bounds in every reachable
state, so the `getD` default is never the value actually toggled. -/
def App.toggle_selection (a : App) : App :=
  match a.cursor with
  | some i => { a with selected := a.selected.set i (! a.selected.getD i false) }
  | none => a

/-- `App::selected_count`. -/
def App.selected_count (a : App) : Nat := a.selected.count true

/-- The loop body of `App::mark_selected_as_pending`: walk `selected`,
setting the status at each selected index to `Pending`.  `selected` and
`statuses` always have equal length (an invariant proved below), so the
length-mismatch arms are never reached. -/
def markPending : List Bool → List RepoStatus → List RepoStatus
  | [], sts => sts
  | _ :: _, [] => []
  | b :: bs, st :: sts => (if b then RepoStatus.pending else st) :: markPending bs sts

/-- `App::mark_selected_as_pending`. -/
def App.mark_selected_as_pending (a : App) : App :=
  { a with statuses := markPending a.selected a.statuses }

/-- The `enumerate().all(...)` of `App::is_all_done`, walking `statuses`
with `selected` in lockstep.  Equal lengths hold in every reachable
state; the mismatch arm is never reached. -/
def allDoneAux : List RepoStatus → List Bool → Bool
  | [], _ => true
  | _ :: _, [] => true
  | st :: sts, b :: bs => (! b || st.isTerminal) && allDoneAux sts bs

/-- `App::is_all_done`. -/
def App.is_all_done (a : App) : Bool := allDoneAux a.statuses a.selected

/-- The `ArchiveResult` events sent over the channel. -/
inductive ArchiveResult where
  | started (idx : Nat)
  | done (idx : Nat)
  | failed (idx : Nat) (err : List Char)
deriving DecidableEq

def eventIdx : ArchiveResult → Nat
  | ArchiveResult.started i => i
  | ArchiveResult.done i => i
  | ArchiveResult.failed i _ => i

def isTerminalEvent : ArchiveResult → Bool
  | ArchiveResult.started _ => false
  | ArchiveResult.done _ => true
  | ArchiveResult.failed _ _ => true

/-- Result of one `Command::new("gh").args(["repo", "archive", ...]).output()`
invocation: an exit with a success flag and captured stderr, or an I/O
error launching the process. -/
inductive ExecResult where
  | output (success : Bool) (stderr : List Char)
  | ioError (msg : List Char)
deriving DecidableEq

/-- The terminal event the worker sends for one item (the body of the
per-item branch in `start_archiving` after `Started`). -/
def archiveOutcome (dryRun : Bool) (exec : List Char → ExecResult) (idx : Nat)
    (name : List Char) : ArchiveResult :=
  if dryRun then ArchiveResult.done idx
  else
    match exec name with
    | ExecResult.output true _ => ArchiveResult.done idx
    | ExecResult.output false stderr => ArchiveResult.failed idx stderr
    | ExecResult.ioError e => ArchiveResult.failed idx e

/-- The full event trace of the worker thread spawned by `start_archiving`:
for each captured item, in order, a `Started` event and then one terminal
event; the `thread::sleep` delays do not affect the trace. -/
def runWorker (dryRun : Bool) (exec : List Char → ExecResult) :
    List (Nat × List Char) → List ArchiveResult
  | [] => []
  | (idx, name) :: rest =>
    ArchiveResult.started idx ::
      ((if dryRun then [ArchiveResult.done idx]
        else
          match exec name with
          | ExecResult.output true _ => [ArchiveResult.done idx]
          | ExecResult.output false stderr => [ArchiveResult.failed idx stderr]
          | ExecResult.ioError e => [ArchiveResult.failed idx e]) ++
        runWorker dryRun exec rest)

/-- `repos.iter().enumerate().filter(|(i, _)| selected[i]).map(|(i, r)| (i, name))`
of `start_archiving`, with `i` counting from the accumulator. -/
def captureAux (sel : List Bool) : Nat → List Repo → List (Nat × List Char)
  | _, [] => []
  | i, r :: rs =>
    if sel.getD i false then (i, r.name) :: captureAux sel (i + 1) rs
    else captureAux sel (i + 1) rs

/-- The captured (index, identifier) list handed to the worker. -/
def App.reposToArchive (a : App) : List (Nat × List Char) := captureAux a.selected 0 a.repos

/-- The foreground loop state: the `App` plus the FIFO of produced but not
yet received worker events. -/
structure LoopState where
  app : App
  queue : List ArchiveResult
deriving DecidableEq

def initState (repos : List Repo) (dry : Bool) : LoopState :=
  { app := App.new repos dry, queue := [] }

/-- The accept path of the confirm modal (`Enter` on Continue, or `y`):
`mark_selected_as_pending`, switch to `Archiving`, and `start_archiving`,
whose worker trace is enqueued. -/
def acceptConfirm (exec : List Char → ExecResult) (s : LoopState) : LoopState :=
  let a := App.mark_selected_as_pending s.app
  let a2 := { a with mode := Mode.archiving }
  { app := a2, queue := s.queue ++ runWorker a2.dry_run exec a2.reposToArchive }

/-- The key codes `run_app` distinguishes. -/
inductive Key where
  | q
  | esc
  | enter
  | up
  | down
  | left
  | right
  | space
  | tab
  | charJ
  | charK
  | charH
  | charL
  | charY
  | charN
  | other
deriving DecidableEq

inductive StepResult where
  | cont (s : LoopState)
  | exit
deriving DecidableEq

/-- The `Mode::Selecting` arm of the key-handling `match` in `run_app`.
`exit` models `return Ok(())`. -/
def selectingKey (s : LoopState) (k : Key) : StepResult :=
  match k with
  | Key.q | Key.esc => StepResult.exit
  | Key.down | Key.charJ => StepResult.cont { app := s.app.next, queue := s.queue }
  | Key.up | Key.charK => StepResult.cont { app := s.app.previous, queue := s.queue }
  | Key.space | Key.tab => StepResult.cont { app := s.app.toggle_selection, queue := s.queue }
  | Key.enter =>
    if 0 < s.app.selected_count then
      StepResult.cont { app := { s.app with mode := Mode.confirmModal }, queue := s.queue }
    else StepResult.cont s
  | _ => StepResult.cont s

/-- The `Mode::ConfirmModal` arm of the key-handling `match` in `run_app`. -/
def confirmKey (exec : List Char → ExecResult) (s : LoopState) (k : Key) : StepResult :=
  match k with
  | Key.left | Key.charH =>
    StepResult.cont { app := { s.app with modal_button := 0 }, queue := s.queue }
  | Key.right | Key.charL =>
    StepResult.cont { app := { s.app with modal_button := 1 }, queue := s.queue }
  | Key.tab =>
    StepResult.cont { app := { s.app with modal_button := 1 - s.app.modal_button }, queue := s.queue }
  | Key.enter =>
    if s.app.modal_button = 1 then StepResult.cont (acceptConfirm exec s)
    else StepResult.cont { app := { s.app with mode := Mode.selecting }, queue := s.queue }
  | Key.charY => StepResult.cont (acceptConfirm exec s)
  | Key.charN | Key.esc =>
    StepResult.cont { app := { s.app with mode := Mode.selecting }, queue := s.queue }
  | _ => StepResult.cont s

/-- The `Mode::Archiving` arm of the key-handling `match` in `run_app`. -/
def archivingKey (s : LoopState) (k : Key) : StepResult :=
  match k with
  | Key.q => StepResult.exit
  | Key.down | Key.charJ => StepResult.cont { app := s.app.next, queue := s.queue }
  | Key.up | Key.charK => StepResult.cont { app := s.app.previous, queue := s.queue }
  | _ => StepResult.cont s

/-- The `Mode::Done` arm of the key-handling `match` in `run_app`. -/
def doneKey (s : LoopState) (k : Key) : StepResult :=
  match k with
  | Key.q | Key.esc | Key.enter => StepResult.exit
  | _ => StepResult.cont s

/-- Dispatch on the current mode (the `match app.mode` of `run_app`). -/
def dispatchKey (exec : List Char → ExecResult) (m : Mode) (s : LoopState) (k : Key) :
    StepResult :=
  match m with
  | Mode.selecting => selectingKey s k
  | Mode.confirmModal => confirmKey exec s k
  | Mode.archiving => archivingKey s k
  | Mode.done => doneKey s k

/-- The key-handling `match app.mode` block of `run_app`. -/
def handleKey (exec : List Char → ExecResult) (s : LoopState) (k : Key) : StepResult :=
  dispatchKey exec s.app.mode s k

/-- Applying one received `ArchiveResult` to the statuses (the body of the
`while let Ok(result) = rx.try_recv()` match). -/
def applyEventStatuses (a : App) (ev : ArchiveResult) : App :=
  match ev with
  | ArchiveResult.started idx => { a with statuses := a.statuses.set idx RepoStatus.archiving }
  | ArchiveResult.done idx => { a with statuses := a.statuses.set idx RepoStatus.done }
  | ArchiveResult.failed idx e => { a with statuses := a.statuses.set idx (RepoStatus.failed e) }

/-- One drain-loop iteration: apply the event, then `if app.is_all_done()
{ app.mode = Mode::Done }`. -/
def applyEvent (a : App) (ev : ArchiveResult) : App :=
  let a2 := applyEventStatuses a ev
  if a2.is_all_done then { a2 with mode := Mode.done } else a2

/-- The status each event kind writes (the right-hand sides of the
`match result` arms in the drain loop). -/
def eventStatus : ArchiveResult → RepoStatus
  | ArchiveResult.started _ => RepoStatus.archiving
  | ArchiveResult.done _ => RepoStatus.done
  | ArchiveResult.failed _ e => RepoStatus.failed e

/-- Receive and apply the oldest delivered event, if any. -/
def drainOne (s : LoopState) : LoopState :=
  match s.queue with
  | [] => s
  | ev :: rest => { app := applyEvent s.app ev, queue := rest }

/-- The events of the queue addressed to item `i`. -/
def eventsFor (i : Nat) (q : List ArchiveResult) : List ArchiveResult :=
  q.filter (fun ev => eventIdx ev == i)

/-- One observable step of `run_app`: handling one key press, or receiving
one worker event from the channel.  The real loop drains all currently
available events before polling; every such execution is a sequence of
these steps. -/
inductive Step (exec : List Char → ExecResult) : LoopState → LoopState → Prop where
  | key (k : Key) {s s' : LoopState} (h : handleKey exec s k = StepResult.cont s') :
      Step exec s s'
  | recv {s : LoopState} : Step exec s (drainOne s)

inductive Reachable (exec : List Char → ExecResult) (init : LoopState) : LoopState → Prop where
  | refl : Reachable exec init init
  | tail {s s' : LoopState} (h : Reachable exec init s) (hs : Step exec s s') :
      Reachable exec init s'

def statusAt (s : LoopState) (i : Nat) : RepoStatus := s.app.statuses.getD i RepoStatus.idle

/-- The one-step forward moves of the status lifecycle
`Idle → Pending → InProgress(Archiving) → {Done | Failed}`. -/
inductive StatusAdvances : RepoStatus → RepoStatus → Prop where
  | idle_pending : StatusAdvances RepoStatus.idle RepoStatus.pending
  | pending_archiving : StatusAdvances RepoStatus.pending RepoStatus.archiving
  | archiving_done : StatusAdvances RepoStatus.archiving RepoStatus.done
  | archiving_failed (msg : List Char) :
      StatusAdvances RepoStatus.archiving (RepoStatus.failed msg)

/-- Queue/status consistency for one item: either no events for it remain
(any status), or its whole `[Started, terminal]` block is still queued and
it is `Pending`, or only the terminal event remains and it is
`Archiving`. -/
def ShapeOK (i : Nat) (evs : List ArchiveResult) (st : RepoStatus) : Prop :=
  evs = [] ∨
    ∃ t, (t = ArchiveResult.done i ∨ ∃ e, t = ArchiveResult.failed i e) ∧
      ((evs = [ArchiveResult.started i, t] ∧ st = RepoStatus.pending) ∨
        (evs = [t] ∧ st = RepoStatus.archiving))

/-- The reachability invariant of the foreground loop. -/
structure LoopInv (s : LoopState) : Prop where
  len_statuses : s.app.statuses.length = s.app.repos.length
  len_selected : s.app.selected.length = s.app.repos.length
  browse_clean : (s.app.mode = Mode.selecting ∨ s.app.mode = Mode.confirmModal) →
    s.queue = [] ∧ ∀ st ∈ s.app.statuses, st = RepoStatus.idle
  confirm_nonempty : s.app.mode = Mode.confirmModal → 0 < s.app.selected_count
  archiving_not_done : s.app.mode = Mode.archiving → s.app.is_all_done = false
  queue_idx : ∀ ev ∈ s.queue, eventIdx ev < s.app.statuses.length
  item_shape : ∀ i, ShapeOK i (eventsFor i s.queue) (s.app.statuses.getD i RepoStatus.idle)

/-! ### Concrete fixtures used by witnesses and counterexamples -/

/-- An external archive command that always succeeds. -/
def execOK : List Char → ExecResult := fun _ => ExecResult.output true []

/-- An external archive command that fails on repository `b` with stderr
`rate limited` and succeeds otherwise. -/
def execRL : List Char → ExecResult := fun nm =>
  if nm = ['b'] then ExecResult.output false "rate limited".toList
  else ExecResult.output true []

def repoA : Repo :=
  { name := ['a']
    created_at := "2015-01-01T00:00:00Z".toList
    pushed_at := "2016-01-01T00:00:00Z".toList
    description := none }

/-- A repo whose `created_at` has fewer than ten bytes. -/
def repoBad : Repo :=
  { name := ['x'], created_at := ['b', 'a', 'd'], pushed_at := ['b', 'a', 'd'],
    description := none }

/-- A repo whose `created_at` has twelve bytes but no UTF-8 char boundary
at byte ten: nine ASCII characters followed by the three-byte '€'. -/
def repoBoundary : Repo :=
  { name := ['x'], created_at := ['2', '0', '2', '4', '-', '0', '1', '-', '0', '€'],
    pushed_at := ['b', 'a', 'd'], description := none }

def cutoff0 : Date := ⟨2024, 1, 1⟩

def today0 : Date := ⟨2024, 1, 1⟩

def items0 : List (Nat × List Char) := [(0, ['b']), (1, ['a'])]

def s0w : LoopState := initState [repoA] false

def s1w : LoopState := { app := s0w.app.toggle_selection, queue := [] }

def s2w : LoopState := { app := { s1w.app with mode := Mode.confirmModal }, queue := [] }

def s3w : LoopState := { app := { s2w.app with modal_button := 0 }, queue := [] }

def s4w : LoopState := { app := { s3w.app with mode := Mode.selecting }, queue := [] }

def s5w : LoopState := { app := { s4w.app with mode := Mode.confirmModal }, queue := [] }

def s6w : LoopState := acceptConfirm execOK s2w

def s7w : LoopState := drainOne s6w

def s8w : LoopState := drainOne s7w

/-! ### Helper lemmas: digits and decimal printing -/

theorem digitChar_toNat {m : Nat} (h : m < 10) : (Nat.digitChar m).toNat = 48 + m := by
  interval_cases m <;> rfl

theorem isDig_digitChar {m : Nat} (h : m < 10) : isDig (Nat.digitChar m) = true := by
  interval_cases m <;> rfl

theorem digitsToNat_append_singleton (l : List Char) (c : Char) :
    digitsToNat (l ++ [c]) = 10 * digitsToNat l + digitVal c := by
  simp [digitsToNat, List.foldl_append]
  omega

theorem natDigitsAux_spec :
    ∀ fuel n : Nat, n < fuel →
      digitsToNat (natDigitsAux fuel n) = n ∧ (natDigitsAux fuel n).all isDig = true ∧
        natDigitsAux fuel n ≠ [] := by
  intro fuel
  induction fuel with
  | zero => intro n hn; omega
  | succ f ih =>
    intro n hn
    by_cases h10 : n < 10
    · simp only [natDigitsAux, if_pos h10]
      refine ⟨?_, ?_, by simp⟩
      · simp [digitsToNat, digitVal, digitChar_toNat h10]
      · simp [isDig_digitChar h10]
    · have hdiv : n / 10 < n := Nat.div_lt_self (by omega) (by omega)
      have hrec := ih (n / 10) (by omega)
      simp only [natDigitsAux, if_neg h10]
      refine ⟨?_, ?_, by simp⟩
      · rw [digitsToNat_append_singleton, hrec.1]
        have : digitVal (Nat.digitChar (n % 10)) = n % 10 := by
          have := digitChar_toNat (m := n % 10) (by omega)
          simp [digitVal, this]
        omega
      · simp [List.all_append, hrec.2.1, isDig_digitChar (m := n % 10) (by omega)]

theorem natDigits_spec (n : Nat) :
    digitsToNat (natDigits n) = n ∧ (natDigits n).all isDig = true ∧ natDigits n ≠ [] :=
  natDigitsAux_spec (n + 1) n (Nat.lt_succ_self n)

theorem isDig_bounds {c : Char} (h : isDig c = true) : 48 ≤ c.toNat ∧ c.toNat ≤ 57 := by
  simpa [isDig] using h

theorem stripPlus_of_all_dig {l : List Char} (h : l.all isDig = true) : stripPlus l = l := by
  cases l with
  | nil => rfl
  | cons c rest =>
    have hc : isDig c = true := by simp [List.all_cons] at h; exact h.1
    have : c ≠ '+' := by
      intro hplus
      rw [hplus] at hc
      simp [isDig] at hc
    simp [stripPlus, this]

theorem parseU32_digits {l : List Char} (hne : l ≠ []) (hdig : l.all isDig = true)
    (hlt : digitsToNat l < 2 ^ 32) : parseU32 l = some (digitsToNat l) := by
  have h32 : digitsToNat l < 4294967296 := by simpa using hlt
  simp [parseU32, stripPlus_of_all_dig hdig, hne, hdig, hlt, h32]

/-! ### Helper lemmas: trim and lowercase fixed points -/

theorem dropWhile_of_all_false {p : Char → Bool} {l : List Char}
    (h : ∀ c ∈ l, p c = false) : l.dropWhile p = l := by
  cases l with
  | nil => rfl
  | cons c rest => simp [List.dropWhile_cons, h c (by simp)]

theorem rustTrim_of_no_ws {l : List Char} (h : ∀ c ∈ l, isRustWhitespace c = false) :
    rustTrim l = l := by
  unfold rustTrim
  rw [dropWhile_of_all_false h, dropWhile_of_all_false, List.reverse_reverse]
  intro c hc
  exact h c (by simpa using hc)

theorem map_rustToLower_of_fixed {l : List Char} (h : ∀ c ∈ l, rustToLower c = c) :
    l.map rustToLower = l := by
  induction l with
  | nil => rfl
  | cons c rest ih =>
    simp only [List.map_cons, h c (by simp)]
    rw [ih (fun x hx => h x (by simp [hx]))]

theorem isDig_not_ws {c : Char} (h : isDig c = true) : isRustWhitespace c = false := by
  have := isDig_bounds h
  simp [isRustWhitespace]
  omega

theorem rustToLower_of_dig {c : Char} (h : isDig c = true) : rustToLower c = c := by
  have := isDig_bounds h
  simp only [rustToLower]
  rw [if_neg]
  simp
  omega

/-- Shared helper: parsing a pure digit string followed by a lowercase
unit letter. -/
theorem age_parse_digits {ds : List Char} {u : Char} (hne : ds ≠ [])
    (hdig : ds.all isDig = true) (hlt : digitsToNat ds < 2 ^ 32) (hu : u = 'y' ∨ u = 'm') :
    Age.parse (ds ++ [u]) =
      ParseOutcome.ok
        (if u = 'y' then Age.years (digitsToNat ds) else Age.months (digitsToNat ds)) := by
  have hfix : ∀ c ∈ ds ++ [u], isRustWhitespace c = false ∧ rustToLower c = c := by
    intro c hc
    rcases List.mem_append.mp hc with hcds | hcu
    · have hcd : isDig c = true := by
        have := List.all_eq_true.mp hdig
        exact this c hcds
      exact ⟨isDig_not_ws hcd, rustToLower_of_dig hcd⟩
    · have : c = u := by simpa using hcu
      subst this
      rcases hu with rfl | rfl <;> exact ⟨by decide, by decide⟩
  have htrim : rustTrim (ds ++ [u]) = ds ++ [u] :=
    rustTrim_of_no_ws (fun c hc => (hfix c hc).1)
  have hlower : (ds ++ [u]).map rustToLower = ds ++ [u] :=
    map_rustToLower_of_fixed (fun c hc => (hfix c hc).2)
  have hsize : u.utf8Size = 1 := by rcases hu with rfl | rfl <;> decide
  simp only [Age.parse, htrim, hlower, List.getLast?_concat, List.dropLast_concat, hsize,
    if_pos rfl, parseU32_digits hne hdig hlt]
  rcases hu with rfl | rfl
  · simp
  · simp

/-! ### Helper lemmas: the stepper invariant -/

theorem agePicker_maxValue_pos (u : AgeUnit) : 1 ≤ u.maxValue := by
  cases u <;> simp [AgeUnit.maxValue]

theorem agePicker_apply_inv (p : AgePicker) (h1 : 1 ≤ p.value)
    (h2 : p.value ≤ p.unit.maxValue) (op : StepperOp) :
    1 ≤ (p.applyOp op).value ∧ (p.applyOp op).value ≤ (p.applyOp op).unit.maxValue := by
  cases op with
  | inc =>
    simp only [AgePicker.applyOp, AgePicker.increment]
    by_cases hc : p.value < p.unit.maxValue <;> simp [hc] <;> omega
  | dec =>
    simp only [AgePicker.applyOp, AgePicker.decrement]
    by_cases hc : 1 < p.value <;> simp [hc] <;> omega
  | toggle =>
    have hpos := agePicker_maxValue_pos p.unit.toggle
    simp only [AgePicker.applyOp, AgePicker.toggle_unit]
    by_cases hc : p.unit.toggle.maxValue < p.value <;> simp [hc] <;> omega

theorem agePicker_ops_inv (ops : List StepperOp) :
    ∀ p : AgePicker, 1 ≤ p.value → p.value ≤ p.unit.maxValue →
      1 ≤ (p.applyOps ops).value ∧ (p.applyOps ops).value ≤ (p.applyOps ops).unit.maxValue := by
  induction ops with
  | nil => intro p h1 h2; exact ⟨h1, h2⟩
  | cons op ops ih =>
    intro p h1 h2
    have hstep := agePicker_apply_inv p h1 h2 op
    simpa [AgePicker.applyOps, List.foldl_cons] using ih (p.applyOp op) hstep.1 hstep.2

/-! ### Helper lemmas: cutoff dates are in the past -/

theorem subMonths_lt {today : Date} {m : Nat} {c : Date} (hm1 : 1 ≤ today.month)
    (hm2 : today.month ≤ 12) (hmm : 1 ≤ m) (hsub : subMonths today m = some c) :
    dateLtB c today = true := by
  simp only [subMonths] at hsub
  split_ifs at hsub with hrange
  injection hsub with hsub
  subst hsub
  simp only [dateLtB]
  split_ifs with h1 h2 h3 h4 <;> try rfl
  all_goals exfalso <;> omega

theorem withYear_lt {today : Date} {n : Nat} {c : Date} (hn : 0 < n)
    (hw : withYear today (today.year - (n : Int)) = some c) :
    dateLtB c today = true := by
  simp only [withYear] at hw
  split_ifs at hw with hcond
  injection hw with hw
  subst hw
  simp only [dateLtB]
  rw [if_pos]
  omega

/-! ### Claim theorems: the age selector -/

/-- Claim C9: starting from the stepper's initial state (2, years), no
sequence of increment / decrement / unit-toggle operations leaves the
magnitude outside [1, 11] for months or [1, 10] for years, and toggling
the unit never raises the magnitude — it is exactly `min` of the old
value and the new unit's bound. -/
theorem stepper_value_clamped :
    AgeUnit.maxValue AgeUnit.months = 11 ∧ AgeUnit.maxValue AgeUnit.years = 10 ∧
    (∀ ops : List StepperOp,
        1 ≤ (AgePicker.new.applyOps ops).value ∧
        (AgePicker.new.applyOps ops).value ≤ (AgePicker.new.applyOps ops).unit.maxValue) ∧
    (∀ p : AgePicker,
        p.toggle_unit.value = min p.value p.unit.toggle.maxValue ∧
        p.toggle_unit.value ≤ p.value) := by
  refine ⟨rfl, rfl, fun ops => agePicker_ops_inv ops AgePicker.new (by decide) (by decide),
    fun p => ?_⟩
  simp only [AgePicker.toggle_unit]
  by_cases hc : p.unit.toggle.maxValue < p.value <;> simp [hc] <;> omega

/-- Claim C6: the Rust parser's byte-based `split_at(len - 1)` panics when
the final character of the (trimmed, lowercased) token is a multi-byte
character such as '€', contradicting the specified "fails without
panicking" for every invalid token; the enumerated ASCII-style invalid
tokens (empty, non-numeric magnitude, unknown unit, missing magnitude) do
fail with an error. -/
theorem age_parse_panic_on_multibyte_unit :
    Age.parse ['8', '€'] = ParseOutcome.panic ∧
    Age.parse [] = ParseOutcome.error ∧
    Age.parse ['x', 'y'] = ParseOutcome.error ∧
    Age.parse ['8', 'd'] = ParseOutcome.error ∧
    Age.parse ['y'] = ParseOutcome.error := by decide

/-- Claim C7, counterexample: `0y` is a valid token (the parser accepts a
zero magnitude), but its cutoff date equals today — it is not strictly
before "now".  Two further valid tokens also break the claim: a year
magnitude large enough that `with_year` fails makes the `unwrap_or(today)`
fallback return today itself, and a magnitude at or above `2^31` wraps in
the `u32 → i32` cast, here to `-1`, putting the cutoff one year in the
future. -/
theorem age_zero_cutoff_not_before_today :
    Age.parse ['0', 'y'] = ParseOutcome.ok (Age.years 0) ∧
    (Age.years 0).cutoff_date today0 = some today0 ∧
    dateLtB today0 today0 = false ∧
    (Age.years 300000).cutoff_date today0 = some today0 ∧
    (Age.years 4294967295).cutoff_date today0 = some ⟨2025, 1, 1⟩ ∧
    dateLtB today0 ⟨2025, 1, 1⟩ = true := by decide

/-- Claim C7 (amended): for every valid token `<n><unit>` whose magnitude
is at least 1 and below `2^31` (so the `u32 → i32` cast is
value-preserving), where the calendar subtraction succeeds — `with_year`
returns a date for the year unit (no `unwrap_or(today)` fallback), and
`checked_sub_months` returns a date for the month unit (no panic) —
parsing succeeds, the cutoff does not panic, and it is strictly before
today; and the display form is the magnitude followed by the unit noun,
pluralized exactly when the magnitude is not 1. -/
theorem age_parse_valid_cutoff_display (n : Nat) (u : Char) (today : Date)
    (hn : 0 < n) (hfit : n < 2 ^ 31) (hu : u = 'y' ∨ u = 'm')
    (hm1 : 1 ≤ today.month) (hm2 : today.month ≤ 12)
    (hy : u = 'y' → (withYear today (today.year - (n : Int))).isSome = true)
    (hmdef : u = 'm' → (subMonths today n).isSome = true) :
    ∃ a : Age,
      Age.parse (natDigits n ++ [u]) = ParseOutcome.ok a ∧
      (∃ c, a.cutoff_date today = some c ∧ dateLtB c today = true) ∧
      a.display =
        natDigits n ++ (if u = 'y' then " year" else " month").toList ++
          (if n = 1 then [] else ['s']) := by
  obtain ⟨hval, hdig, hne⟩ := natDigits_spec n
  have hfit2 : digitsToNat (natDigits n) < 2 ^ 32 := by
    rw [hval]
    omega
  have hcast : u32AsI32 n = (n : Int) := by
    unfold u32AsI32
    rw [if_pos hfit]
  rcases hu with rfl | rfl
  · obtain ⟨c, hc⟩ := Option.isSome_iff_exists.mp (hy rfl)
    refine ⟨Age.years n, ?_, ⟨c, ?_, withYear_lt hn hc⟩, ?_⟩
    · rw [age_parse_digits hne hdig hfit2 (Or.inl rfl)]
      simp [hval]
    · simp [Age.cutoff_date, hcast, hc]
    · simp [Age.display]
  · obtain ⟨c, hc⟩ := Option.isSome_iff_exists.mp (hmdef rfl)
    refine ⟨Age.months n, ?_, ⟨c, ?_, subMonths_lt hm1 hm2 hn hc⟩, ?_⟩
    · rw [age_parse_digits hne hdig hfit2 (Or.inr rfl)]
      simp [hval]
    · simp [Age.cutoff_date, hc]
    · simp [Age.display]

theorem age_parse_valid_cutoff_display_witness :
    ∃ a : Age,
      Age.parse (natDigits 2 ++ ['y']) = ParseOutcome.ok a ∧
      (∃ c, a.cutoff_date today0 = some c ∧ dateLtB c today0 = true) ∧
      a.display =
        natDigits 2 ++ (if ('y' : Char) = 'y' then " year" else " month").toList ++
          (if 2 = 1 then [] else ['s']) :=
  age_parse_valid_cutoff_display 2 'y' today0 (by decide) (by decide) (Or.inl rfl)
    (by decide) (by decide) (fun _ => by decide) (fun h => absurd h (by decide))

/-- Claim C10: the non-interactive parser has no range restriction beyond
the machine word — every digit token whose value fits `u32` is accepted
with either unit, including 0 and values above the stepper's maxima; it
trims surrounding whitespace and accepts uppercase unit letters; the
[1,10] / [1,11] bounds exist only in the interactive stepper. -/
theorem age_parse_unbounded :
    (∀ ds : List Char, ds ≠ [] → ds.all isDig = true → digitsToNat ds < 2 ^ 32 →
        Age.parse (ds ++ ['y']) = ParseOutcome.ok (Age.years (digitsToNat ds)) ∧
        Age.parse (ds ++ ['m']) = ParseOutcome.ok (Age.months (digitsToNat ds))) ∧
    Age.parse ['0', 'y'] = ParseOutcome.ok (Age.years 0) ∧
    Age.parse ['9', '9', 'y'] = ParseOutcome.ok (Age.years 99) ∧
    Age.parse ['5', '0', 'm'] = ParseOutcome.ok (Age.months 50) ∧
    Age.parse [' ', '8', 'Y', ' '] = ParseOutcome.ok (Age.years 8) ∧
    (∀ ops : List StepperOp,
        (AgePicker.new.applyOps ops).value ≤ 11 ∧
        ((AgePicker.new.applyOps ops).unit = AgeUnit.years →
          (AgePicker.new.applyOps ops).value ≤ 10)) := by
  refine ⟨?_, by decide, by decide, by decide, by decide, ?_⟩
  · intro ds hne hdig hlt
    constructor
    · rw [age_parse_digits hne hdig hlt (Or.inl rfl)]
      simp
    · rw [age_parse_digits hne hdig hlt (Or.inr rfl)]
      simp
  · intro ops
    have h := agePicker_ops_inv ops AgePicker.new (by decide) (by decide)
    constructor
    · rcases hcase : (AgePicker.new.applyOps ops).unit with _ | _
      · have h2 := h.2
        rw [hcase] at h2
        simpa [AgeUnit.maxValue] using h2
      · have h2 := h.2
        rw [hcase] at h2
        simp [AgeUnit.maxValue] at h2
        omega
    · intro hyrs
      have h2 := h.2
      rw [hyrs] at h2
      simpa [AgeUnit.maxValue] using h2

theorem age_parse_unbounded_witness :
    Age.parse (['9', '9'] ++ ['y']) = ParseOutcome.ok (Age.years (digitsToNat ['9', '9'])) :=
  (age_parse_unbounded.1 ['9', '9'] (by decide) (by decide) (by decide)).1

/-! ### Helper lemmas: the worker trace -/

theorem runWorker_cons (d : Bool) (e : List Char → ExecResult) (idx : Nat) (nm : List Char)
    (tl : List (Nat × List Char)) :
    runWorker d e ((idx, nm) :: tl) =
      ArchiveResult.started idx :: archiveOutcome d e idx nm :: runWorker d e tl := by
  simp only [runWorker, archiveOutcome]
  by_cases hd : d
  · simp [hd]
  · simp only [hd, if_false, Bool.false_eq_true]
    rcases he : e nm with ⟨s, st⟩ | msg
    · cases s <;> simp
    · simp

theorem archiveOutcome_terminal (d : Bool) (e : List Char → ExecResult) (idx : Nat)
    (nm : List Char) :
    archiveOutcome d e idx nm = ArchiveResult.done idx ∨
      ∃ msg, archiveOutcome d e idx nm = ArchiveResult.failed idx msg := by
  unfold archiveOutcome
  by_cases hd : d
  · simp [hd]
  · simp only [hd, if_false, Bool.false_eq_true]
    rcases he : e nm with ⟨s, st⟩ | msg
    · cases s <;> simp
    · simp

theorem runWorker_flatMap (d : Bool) (e : List Char → ExecResult)
    (items : List (Nat × List Char)) :
    runWorker d e items =
      items.flatMap (fun p => [ArchiveResult.started p.1, archiveOutcome d e p.1 p.2]) := by
  induction items with
  | nil => rfl
  | cons hd tl ih =>
    rcases hd with ⟨idx, nm⟩
    rw [runWorker_cons, List.flatMap_cons, ih]
    rfl

/-! ### Claim theorem: the archive executor (C1) -/

/-- Claim C1: the worker processes the captured (index, identifier) pairs
strictly in order, emitting for each item exactly one `Started` event
immediately followed by exactly one terminal event (`Done` or `Failed`)
for the same index before the next item's `Started`; a failure for one
item never prevents later items from being processed (every captured
item's `Started` event is in the trace regardless of other outcomes). -/
theorem worker_serial_per_item (dryRun : Bool) (exec : List Char → ExecResult)
    (items : List (Nat × List Char)) :
    runWorker dryRun exec items =
      items.flatMap
        (fun p => [ArchiveResult.started p.1, archiveOutcome dryRun exec p.1 p.2]) ∧
    ∀ p ∈ items,
      isTerminalEvent (archiveOutcome dryRun exec p.1 p.2) = true ∧
      eventIdx (archiveOutcome dryRun exec p.1 p.2) = p.1 ∧
      ArchiveResult.started p.1 ∈ runWorker dryRun exec items := by
  refine ⟨runWorker_flatMap dryRun exec items, fun p hp => ⟨?_, ?_, ?_⟩⟩
  · rcases archiveOutcome_terminal dryRun exec p.1 p.2 with h | ⟨msg, h⟩ <;>
      rw [h] <;> rfl
  · rcases archiveOutcome_terminal dryRun exec p.1 p.2 with h | ⟨msg, h⟩ <;>
      rw [h] <;> rfl
  · rw [runWorker_flatMap]
    exact List.mem_flatMap.mpr ⟨p, hp, by simp⟩

theorem worker_serial_per_item_witness :
    isTerminalEvent (archiveOutcome false execRL 0 ['b']) = true ∧
    ArchiveResult.started 1 ∈ runWorker false execRL items0 := by
  have h := (worker_serial_per_item false execRL items0).2
  exact ⟨(h (0, ['b']) (by decide)).1, (h (1, ['a']) (by decide)).2.2⟩

/-! ### Helper lemmas: the string order -/

theorem charListLt_irrefl : ∀ l : List Char, charListLt l l = false := by
  intro l
  induction l with
  | nil => rfl
  | cons c cs ih => simp [charListLt, ih]

theorem charListLt_asymm : ∀ a b : List Char, charListLt a b = true → charListLt b a = false := by
  intro a
  induction a with
  | nil =>
    intro b h
    cases b <;> rfl
  | cons x as ih =>
    intro b h
    cases b with
    | nil => simp [charListLt] at h
    | cons y bs =>
      by_cases h1 : x.toNat < y.toNat
      · have h3 : ¬ y.toNat < x.toNat := by omega
        simp [charListLt, h1, h3]
      · by_cases h2 : y.toNat < x.toNat
        · simp [charListLt, h1, h2] at h
        · simp [charListLt, h1, h2] at h ⊢
          exact ih bs h

theorem charListLt_negtrans :
    ∀ a b c : List Char, charListLt b a = false → charListLt c b = false →
      charListLt c a = false := by
  intro a
  induction a with
  | nil =>
    intro b c h1 h2
    cases c with
    | nil => rfl
    | cons z cs =>
      cases b with
      | nil => simpa [charListLt] using h2
      | cons y bs => simpa [charListLt] using h1
  | cons x as ih =>
    intro b c h1 h2
    cases b with
    | nil => simp [charListLt] at h1
    | cons y bs =>
      cases c with
      | nil => simp [charListLt] at h2
      | cons z cs =>
        have hyx : ¬ y.toNat < x.toNat := by
          intro hc
          simp [charListLt, hc] at h1
        have hzy : ¬ z.toNat < y.toNat := by
          intro hc
          simp [charListLt, hc] at h2
        by_cases hzx : z.toNat < x.toNat
        · exact absurd hzx (by omega)
        · by_cases hxz : x.toNat < z.toNat
          · simp [charListLt, hzx, hxz]
          · have hxy : ¬ x.toNat < y.toNat := by omega
            have hyz : ¬ y.toNat < z.toNat := by omega
            simp [charListLt, hyx, hxy] at h1
            simp [charListLt, hzy, hyz] at h2
            simp [charListLt, hzx, hxz]
            exact ih bs cs h1 h2

theorem charListLt_append :
    ∀ pa pb ta tb : List Char, pa.length = pb.length → charListLt pb pa = true →
      charListLt (pb ++ tb) (pa ++ ta) = true := by
  intro pa
  induction pa with
  | nil =>
    intro pb ta tb hlen h
    cases pb with
    | nil => simp [charListLt] at h
    | cons y bs => simp at hlen
  | cons a as ih =>
    intro pb ta tb hlen h
    cases pb with
    | nil => simp at hlen
    | cons b bs =>
      by_cases h1 : b.toNat < a.toNat
      · simp [charListLt, h1]
      · by_cases h2 : a.toNat < b.toNat
        · simp [charListLt, h1, h2] at h
        · simp only [List.cons_append]
          simp [charListLt, h1, h2] at h ⊢
          exact ih bs ta tb (by simpa using hlen) h

/-! ### Helper lemmas: stable sorting by `created_at` -/

theorem insertByCreated_perm (r : Repo) (l : List Repo) :
    (insertByCreated r l).Perm (r :: l) := by
  induction l with
  | nil => exact List.Perm.refl _
  | cons x xs ih =>
    simp only [insertByCreated]
    split_ifs
    · exact (ih.cons x).trans (List.Perm.swap r x xs)
    · exact List.Perm.refl _

theorem sortByCreated_perm (l : List Repo) : (sortByCreated l).Perm l := by
  induction l with
  | nil => exact List.Perm.refl _
  | cons r rest ih => exact (insertByCreated_perm r (sortByCreated rest)).trans (ih.cons r)

theorem insertByCreated_sorted (r : Repo) (l : List Repo)
    (hs : l.Pairwise (fun a b => charListLt b.created_at a.created_at = false)) :
    (insertByCreated r l).Pairwise
      (fun a b => charListLt b.created_at a.created_at = false) := by
  induction l with
  | nil => simp [insertByCreated]
  | cons x xs ih =>
    rcases List.pairwise_cons.mp hs with ⟨hx, hxs⟩
    simp only [insertByCreated]
    split_ifs with hlt
    · refine List.pairwise_cons.mpr ⟨?_, ih hxs⟩
      intro y hy
      have hy2 := (insertByCreated_perm r xs).mem_iff.mp hy
      rcases List.mem_cons.mp hy2 with rfl | hyxs
      · exact charListLt_asymm _ _ hlt
      · exact hx y hyxs
    · have hle : charListLt x.created_at r.created_at = false :=
        Bool.eq_false_iff.mpr hlt
      refine List.pairwise_cons.mpr ⟨?_, hs⟩
      intro y hy
      rcases List.mem_cons.mp hy with rfl | hyxs
      · exact hle
      · exact charListLt_negtrans _ _ _ hle (hx y hyxs)

theorem sortByCreated_sorted (l : List Repo) :
    (sortByCreated l).Pairwise (fun a b => charListLt b.created_at a.created_at = false) := by
  induction l with
  | nil => simp [sortByCreated]
  | cons r rest ih => exact insertByCreated_sorted r (sortByCreated rest) ih

theorem sortByCreated_const (c : List Char) :
    ∀ l : List Repo, (∀ r ∈ l, r.created_at = c) → sortByCreated l = l := by
  intro l
  induction l with
  | nil => intro h; rfl
  | cons r rest ih =>
    intro h
    have hrest : sortByCreated rest = rest := ih (fun x hx => h x (by simp [hx]))
    simp only [sortByCreated, hrest]
    cases rest with
    | nil => rfl
    | cons x xs =>
      have hx : x.created_at = c := h x (by simp)
      have hr : r.created_at = c := h r (by simp)
      simp [insertByCreated, hx, hr, charListLt_irrefl]

/-! ### Helper lemmas: the filter of `fetch_repos` -/

theorem repoQualifies_isSome {cutoff : Date} {r : Repo}
    (h : (byteSlicePrefix r.created_at 10).isSome = true) :
    (repoQualifies cutoff r).isSome = true := by
  unfold repoQualifies
  rcases hb : byteSlicePrefix r.created_at 10 with _ | p
  · rw [hb] at h
    simp at h
  · simp

theorem filterRepos_eq_filter (cutoff : Date) :
    ∀ repos : List Repo, (∀ r ∈ repos, (repoQualifies cutoff r).isSome = true) →
      filterRepos cutoff repos = some (repos.filter (qualifiesB cutoff)) := by
  intro repos
  induction repos with
  | nil => intro h; rfl
  | cons r rest ih =>
    intro h
    have hr : (repoQualifies cutoff r).isSome = true := h r (by simp)
    rcases hq : repoQualifies cutoff r with _ | b
    · rw [hq] at hr
      simp at hr
    · have hrest := ih (fun x hx => h x (by simp [hx]))
      have hqb : qualifiesB cutoff r = b := by simp [qualifiesB, hq]
      simp only [filterRepos, hq, hrest]
      rcases b with _ | _
      · simp [List.filter_cons, hqb]
      · simp [List.filter_cons, hqb]

theorem qualifiesB_true_iff (cutoff : Date) (r : Repo) :
    qualifiesB cutoff r = true ↔ ∃ d, createdDate r = some d ∧ dateLtB d cutoff = true := by
  unfold qualifiesB repoQualifies createdDate
  rcases hb : byteSlicePrefix r.created_at 10 with _ | p
  · simp
  · rcases hp : parseDate10 p with _ | d
    · simp [hp]
    · simp [hp]

theorem byteSlicePrefix_append :
    ∀ (s : List Char) (n : Nat) (p : List Char), byteSlicePrefix s n = some p →
      ∃ t, s = p ++ t := by
  intro s
  induction s with
  | nil =>
    intro n p h
    cases n with
    | zero =>
      simp only [byteSlicePrefix, Option.some.injEq] at h
      exact ⟨[], by simp [← h]⟩
    | succ m => simp [byteSlicePrefix] at h
  | cons c rest ih =>
    intro n p h
    cases n with
    | zero =>
      simp only [byteSlicePrefix, Option.some.injEq] at h
      exact ⟨c :: rest, by simp [← h]⟩
    | succ m =>
      simp only [byteSlicePrefix] at h
      by_cases hc : c.utf8Size ≤ m + 1
      · rw [if_pos hc] at h
        rcases hrec : byteSlicePrefix rest (m + 1 - c.utf8Size) with _ | q
        · rw [hrec] at h
          simp at h
        · rw [hrec] at h
          injection h with h
          obtain ⟨t, ht⟩ := ih _ _ hrec
          refine ⟨t, ?_⟩
          rw [← h, ht]
          rfl
      · rw [if_neg hc] at h
        simp at h

/-! ### Helper lemmas: canonical date strings order like their dates -/

theorem dateLtB_iff (a b : Date) :
    dateLtB a b = true ↔
      a.year < b.year ∨
        (a.year = b.year ∧ (a.month < b.month ∨ (a.month = b.month ∧ a.day < b.day))) := by
  unfold dateLtB
  split_ifs <;> simp <;> omega

theorem dateLtB_trichotomy (a b : Date) :
    dateLtB a b = true ∨ a = b ∨ dateLtB b a = true := by
  cases a with
  | mk ya ma da =>
    cases b with
    | mk yb mb db =>
      simp only [dateLtB_iff, Date.mk.injEq]
      omega

theorem scanDigits_two {a b : Char} (ka : isDig a = true) (kb : isDig b = true)
    (rest : List Char) : scanDigits 2 (a :: b :: rest) = ([a, b], rest) := by
  rcases rest with _ | ⟨e, es⟩ <;> simp [scanDigits, ka, kb]

theorem scanDigits_four {a b c d : Char} (ka : isDig a = true) (kb : isDig b = true)
    (kc : isDig c = true) (kd : isDig d = true) (rest : List Char) :
    scanDigits 4 (a :: b :: c :: d :: rest) = ([a, b, c, d], rest) := by
  rcases rest with _ | ⟨e, es⟩ <;> simp [scanDigits, ka, kb, kc, kd]

theorem parseNum_two {a b : Char} (ka : isDig a = true) (kb : isDig b = true)
    (rest : List Char) :
    parseNum 2 (a :: b :: rest) = some (digitsToNat [a, b], rest) := by
  simp [parseNum, List.dropWhile_cons, isDig_not_ws ka, scanDigits_two ka kb]

theorem parseYearField_digits {a b c d : Char} (ka : isDig a = true) (kb : isDig b = true)
    (kc : isDig c = true) (kd : isDig d = true) (rest : List Char) :
    parseYearField (a :: b :: c :: d :: rest) =
      some ((digitsToNat [a, b, c, d] : Int), rest) := by
  have hnd : a ≠ '-' := by
    intro hc
    subst hc
    exact absurd ka (by decide)
  have hnp : a ≠ '+' := by
    intro hc
    subst hc
    exact absurd ka (by decide)
  simp [parseYearField, List.dropWhile_cons, isDig_not_ws ka, hnd, hnp,
    scanDigits_four ka kb kc kd]

theorem canonicalDate10_length {s : List Char} (h : canonicalDate10 s = true) :
    s.length = 10 := by
  rcases s with _ | ⟨c1, _ | ⟨c2, _ | ⟨c3, _ | ⟨c4, _ | ⟨c5, _ | ⟨c6, _ | ⟨c7, _ | ⟨c8, _ |
    ⟨c9, _ | ⟨c10, _ | ⟨c11, srest⟩⟩⟩⟩⟩⟩⟩⟩⟩⟩⟩ <;> try simp [canonicalDate10] at h
  rfl

theorem parseDate10_shape {s : List Char} {d : Date} (hcan : canonicalDate10 s = true)
    (h : parseDate10 s = some d) :
    ∃ y1 y2 y3 y4 m1 m2 d1 d2,
      s = [y1, y2, y3, y4, '-', m1, m2, '-', d1, d2] ∧
      isDig y1 = true ∧ isDig y2 = true ∧ isDig y3 = true ∧ isDig y4 = true ∧
      isDig m1 = true ∧ isDig m2 = true ∧ isDig d1 = true ∧ isDig d2 = true ∧
      d.year =
        Int.ofNat (digitVal y1 * 1000 + digitVal y2 * 100 + digitVal y3 * 10 + digitVal y4) ∧
      d.month = digitVal m1 * 10 + digitVal m2 ∧
      d.day = digitVal d1 * 10 + digitVal d2 := by
  rcases s with _ | ⟨c1, _ | ⟨c2, _ | ⟨c3, _ | ⟨c4, _ | ⟨c5, _ | ⟨c6, _ | ⟨c7, _ | ⟨c8, _ |
    ⟨c9, _ | ⟨c10, _ | ⟨c11, srest⟩⟩⟩⟩⟩⟩⟩⟩⟩⟩⟩ <;> try simp [canonicalDate10] at hcan
  obtain ⟨⟨⟨⟨⟨⟨⟨⟨⟨hs1, hs2⟩, ky1⟩, ky2⟩, ky3⟩, ky4⟩, km1⟩, km2⟩, kd1⟩, kd2⟩ := hcan
  subst hs1
  subst hs2
  have heval : parseDate10 [c1, c2, c3, c4, '-', c6, c7, '-', c9, c10] =
      if chronoMinYear ≤ (digitsToNat [c1, c2, c3, c4] : Int) ∧
          (digitsToNat [c1, c2, c3, c4] : Int) ≤ chronoMaxYear ∧
          1 ≤ digitsToNat [c6, c7] ∧ digitsToNat [c6, c7] ≤ 12 ∧
          1 ≤ digitsToNat [c9, c10] ∧
          digitsToNat [c9, c10] ≤
            daysInMonth (digitsToNat [c1, c2, c3, c4] : Int) (digitsToNat [c6, c7]) then
        some ⟨(digitsToNat [c1, c2, c3, c4] : Int), digitsToNat [c6, c7],
          digitsToNat [c9, c10]⟩
      else none := by
    unfold parseDate10
    rw [parseYearField_digits ky1 ky2 ky3 ky4]
    simp [parseNum_two km1 km2, parseNum_two kd1 kd2]
  rw [heval] at h
  split_ifs at h with hcond
  · injection h with h
    subst h
    refine ⟨c1, c2, c3, c4, c6, c7, c9, c10, rfl, ky1, ky2, ky3, ky4, km1, km2, kd1, kd2,
      ?_, ?_, ?_⟩
    · show (digitsToNat [c1, c2, c3, c4] : Int) =
        Int.ofNat (digitVal c1 * 1000 + digitVal c2 * 100 + digitVal c3 * 10 + digitVal c4)
      simp only [Int.ofNat_eq_natCast, Nat.cast_inj]
      simp [digitsToNat]
      ring
    · show digitsToNat [c6, c7] = digitVal c6 * 10 + digitVal c7
      simp [digitsToNat]
    · show digitsToNat [c9, c10] = digitVal c9 * 10 + digitVal c10
      simp [digitsToNat]

theorem charListLt_cons (a b : Char) (as bs : List Char) :
    charListLt (a :: as) (b :: bs) =
      if a.toNat < b.toNat then true
      else if b.toNat < a.toNat then false
      else charListLt as bs := rfl

theorem charListLt_nil (l : List Char) : charListLt l [] = false := by
  cases l <;> rfl

theorem charListLt_cons_iff (a b : Char) (as bs : List Char) :
    charListLt (a :: as) (b :: bs) = true ↔
      (a.toNat < b.toNat ∨ (a.toNat = b.toNat ∧ charListLt as bs = true)) := by
  rw [charListLt_cons]
  by_cases h1 : a.toNat < b.toNat
  · simp [h1]
  · by_cases h2 : b.toNat < a.toNat
    · simp only [if_neg h1, if_pos h2, Bool.false_eq_true, false_iff]
      rintro (hc | ⟨hc, -⟩)
      · exact h1 hc
      · omega
    · have heq : a.toNat = b.toNat := by omega
      simp only [if_neg h1, if_neg h2, heq]
      simp

set_option maxHeartbeats 1000000 in
theorem charListLt_of_dateLt {pa pb : List Char} {da db : Date}
    (hcana : canonicalDate10 pa = true) (hcanb : canonicalDate10 pb = true)
    (ha : parseDate10 pa = some da) (hb : parseDate10 pb = some db)
    (hlt : dateLtB db da = true) : charListLt pb pa = true := by
  obtain ⟨a1, a2, a3, a4, a6, a7, a9, a10, hpa, ka1, ka2, ka3, ka4, ka6, ka7, ka9, ka10,
    hya, hma, hda⟩ := parseDate10_shape hcana ha
  obtain ⟨b1, b2, b3, b4, b6, b7, b9, b10, hpb, kb1, kb2, kb3, kb4, kb6, kb7, kb9, kb10,
    hyb, hmb, hdb⟩ := parseDate10_shape hcanb hb
  subst hpa
  subst hpb
  obtain ⟨la1, ua1⟩ := isDig_bounds ka1
  obtain ⟨la2, ua2⟩ := isDig_bounds ka2
  obtain ⟨la3, ua3⟩ := isDig_bounds ka3
  obtain ⟨la4, ua4⟩ := isDig_bounds ka4
  obtain ⟨la6, ua6⟩ := isDig_bounds ka6
  obtain ⟨la7, ua7⟩ := isDig_bounds ka7
  obtain ⟨la9, ua9⟩ := isDig_bounds ka9
  obtain ⟨la10, ua10⟩ := isDig_bounds ka10
  obtain ⟨lb1, ub1⟩ := isDig_bounds kb1
  obtain ⟨lb2, ub2⟩ := isDig_bounds kb2
  obtain ⟨lb3, ub3⟩ := isDig_bounds kb3
  obtain ⟨lb4, ub4⟩ := isDig_bounds kb4
  obtain ⟨lb6, ub6⟩ := isDig_bounds kb6
  obtain ⟨lb7, ub7⟩ := isDig_bounds kb7
  obtain ⟨lb9, ub9⟩ := isDig_bounds kb9
  obtain ⟨lb10, ub10⟩ := isDig_bounds kb10
  rw [dateLtB_iff, hya, hyb, hma, hmb, hda, hdb] at hlt
  simp only [digitVal, Int.ofNat_eq_natCast, Nat.cast_lt, Nat.cast_inj] at hlt
  simp only [charListLt_cons_iff, charListLt_nil, Bool.false_eq_true, true_and, and_false,
    or_false, false_or, lt_self_iff_false] at hlt ⊢
  omega

/-! ### Claim theorems: `fetch_repos` filtering (C5) -/

/-- Claim C5, counterexample: an item whose `created_at` has fewer than
ten bytes — or at least ten bytes but no UTF-8 char boundary at byte ten,
as in nine ASCII characters followed by a three-byte '€' — makes the byte
slice `&r.created_at[..10]` panic (modelled as `none`) instead of being
excluded from the result. -/
theorem fetch_repos_filter_short_created_panics :
    fetch_repos_filter cutoff0 [repoBad] = none ∧
    fetch_repos_filter cutoff0 [repoBad] ≠ some [] ∧
    (repoBoundary.created_at.map Char.utf8Size).sum = 12 ∧
    fetch_repos_filter cutoff0 [repoBoundary] = none := by decide

/-- Claim C5 (amended): on any input whose items all carry at least ten
bytes of `created_at` with a UTF-8 char boundary at byte ten (otherwise
the byte slice panics, as the counterexample shows), the filter retains
exactly the items whose ten-byte prefix parses under chrono's `%Y-%m-%d`
to a date strictly earlier than the cutoff, treats an unparseable prefix
as "does not qualify" rather than erroring, and returns the retained
items sorted ascending by the `created_at` byte string; that order
coincides with ascending creation-date order whenever the retained
prefixes are canonical zero-padded `YYYY-MM-DD`, and the input order is
kept when all `created_at` values are equal. -/
theorem fetch_repos_filter_spec (cutoff : Date) (repos : List Repo)
    (hWF : ∀ r ∈ repos, (byteSlicePrefix r.created_at 10).isSome = true) :
    ∃ l, fetch_repos_filter cutoff repos = some l ∧
      l.Perm (repos.filter (qualifiesB cutoff)) ∧
      (∀ r, r ∈ l ↔ r ∈ repos ∧ qualifiesB cutoff r = true) ∧
      (∀ r, qualifiesB cutoff r = true ↔
          ∃ d, createdDate r = some d ∧ dateLtB d cutoff = true) ∧
      l.Pairwise (fun a b => charListLt b.created_at a.created_at = false) ∧
      ((∀ r ∈ repos, ∀ p, byteSlicePrefix r.created_at 10 = some p →
            canonicalDate10 p = true) →
        l.Pairwise (fun a b => ∀ da db, createdDate a = some da → createdDate b = some db →
          (dateLtB da db = true ∨ da = db))) ∧
      (∀ r ∈ l, ∃ d, createdDate r = some d ∧ dateLtB d cutoff = true) ∧
      (∀ c : List Char, (∀ r ∈ repos, r.created_at = c) →
          l = repos.filter (qualifiesB cutoff)) := by
  have hWF2 : ∀ r ∈ repos, (repoQualifies cutoff r).isSome = true :=
    fun r hr => repoQualifies_isSome (hWF r hr)
  have hfil := filterRepos_eq_filter cutoff repos hWF2
  refine ⟨sortByCreated (repos.filter (qualifiesB cutoff)), ?_, sortByCreated_perm _, ?_,
    fun r => qualifiesB_true_iff cutoff r, sortByCreated_sorted _, ?_, ?_, ?_⟩
  · simp [fetch_repos_filter, hfil]
  · intro r
    rw [(sortByCreated_perm _).mem_iff, List.mem_filter]
  · intro hcanon
    have hsorted := sortByCreated_sorted (repos.filter (qualifiesB cutoff))
    refine List.Pairwise.imp_of_mem ?_ hsorted
    intro a b hain hbin hstr da db hda hdb
    have harep : a ∈ repos :=
      (List.mem_filter.mp ((sortByCreated_perm _).mem_iff.mp hain)).1
    have hbrep : b ∈ repos :=
      (List.mem_filter.mp ((sortByCreated_perm _).mem_iff.mp hbin)).1
    rcases hca : byteSlicePrefix a.created_at 10 with _ | pa
    · simp [createdDate, hca] at hda
    rcases hcb : byteSlicePrefix b.created_at 10 with _ | pb
    · simp [createdDate, hcb] at hdb
    simp only [createdDate, hca] at hda
    simp only [createdDate, hcb] at hdb
    have hcanA : canonicalDate10 pa = true := hcanon a harep pa hca
    have hcanB : canonicalDate10 pb = true := hcanon b hbrep pb hcb
    obtain ⟨ta, hta⟩ := byteSlicePrefix_append _ _ _ hca
    obtain ⟨tb, htb⟩ := byteSlicePrefix_append _ _ _ hcb
    have hla : pa.length = 10 := canonicalDate10_length hcanA
    have hlb : pb.length = 10 := canonicalDate10_length hcanB
    by_cases hd : dateLtB db da = true
    · exfalso
      have hppa : charListLt pb pa = true := charListLt_of_dateLt hcanA hcanB hda hdb hd
      have hfull := charListLt_append pa pb ta tb (by rw [hla, hlb]) hppa
      rw [← hta, ← htb] at hfull
      rw [hstr] at hfull
      exact Bool.false_ne_true hfull
    · rcases dateLtB_trichotomy da db with h | h | h
      · exact Or.inl h
      · exact Or.inr h
      · exact absurd h hd
  · intro r hr
    have hmem := (sortByCreated_perm _).mem_iff.mp hr
    exact (qualifiesB_true_iff cutoff r).mp (List.mem_filter.mp hmem).2
  · intro c hc
    exact sortByCreated_const c _ (fun r hr => hc r (List.mem_filter.mp hr).1)

theorem fetch_repos_filter_spec_witness :
    ∃ l, fetch_repos_filter cutoff0 [repoA] = some l ∧
      l.Perm ([repoA].filter (qualifiesB cutoff0)) := by
  obtain ⟨l, h1, h2, -⟩ := fetch_repos_filter_spec cutoff0 [repoA] (by decide)
  exact ⟨l, h1, h2⟩

/-! ### Helper lemmas: list indexing -/

theorem getD_set_self {α : Type} {l : List α} {i : Nat} {x d : α} (h : i < l.length) :
    (l.set i x).getD i d = x := by
  induction l generalizing i with
  | nil => simp at h
  | cons a as ih =>
    cases i with
    | zero => simp
    | succ n =>
      simp only [List.set_cons_succ, List.getD_cons_succ]
      exact ih (by simpa using h)

theorem getD_set_ne {α : Type} {l : List α} {i j : Nat} {x d : α} (h : j ≠ i) :
    (l.set i x).getD j d = l.getD j d := by
  induction l generalizing i j with
  | nil => simp
  | cons a as ih =>
    cases i with
    | zero =>
      cases j with
      | zero => exact absurd rfl h
      | succ m => simp
    | succ n =>
      cases j with
      | zero => simp
      | succ m =>
        simp only [List.set_cons_succ, List.getD_cons_succ]
        exact ih (fun hc => h (by rw [hc]))

theorem getD_of_all {α : Type} {l : List α} {x : α} (h : ∀ y ∈ l, y = x) (i : Nat) :
    l.getD i x = x := by
  induction l generalizing i with
  | nil => simp
  | cons a as ih =>
    cases i with
    | zero => simpa using h a (by simp)
    | succ n =>
      simp only [List.getD_cons_succ]
      exact ih (fun y hy => h y (by simp [hy])) n

/-! ### Helper lemmas: `mark_selected_as_pending` and `is_all_done` -/

theorem length_markPending : ∀ (bs : List Bool) (sts : List RepoStatus),
    (markPending bs sts).length = sts.length := by
  intro bs
  induction bs with
  | nil => intro sts; rfl
  | cons b bs ih =>
    intro sts
    cases sts with
    | nil => rfl
    | cons st sts => simpa [markPending] using ih sts

theorem getD_markPending : ∀ (bs : List Bool) (sts : List RepoStatus) (i : Nat),
    (markPending bs sts).getD i RepoStatus.idle =
      if bs.getD i false = true ∧ i < sts.length then RepoStatus.pending
      else sts.getD i RepoStatus.idle := by
  intro bs
  induction bs with
  | nil =>
    intro sts i
    simp [markPending]
  | cons b bs ih =>
    intro sts i
    cases sts with
    | nil =>
      cases i <;> simp [markPending]
    | cons st sts =>
      cases i with
      | zero => cases b <;> simp [markPending]
      | succ n =>
        simp only [markPending, List.getD_cons_succ, List.length_cons]
        rw [ih sts n]
        by_cases hc : bs.getD n false = true ∧ n < sts.length
        · rw [if_pos hc, if_pos ⟨hc.1, by omega⟩]
        · rw [if_neg hc, if_neg (fun hc2 => hc ⟨hc2.1, by omega⟩)]

theorem allDoneAux_eq_true_iff : ∀ (sts : List RepoStatus) (bs : List Bool),
    allDoneAux sts bs = true ↔
      ∀ i, i < sts.length → bs.getD i false = true →
        (sts.getD i RepoStatus.idle).isTerminal = true := by
  intro sts
  induction sts with
  | nil => intro bs; simp [allDoneAux]
  | cons st sts ih =>
    intro bs
    cases bs with
    | nil =>
      simp only [allDoneAux, true_iff]
      intro i hi hbi
      simp at hbi
    | cons b bs =>
      simp only [allDoneAux, Bool.and_eq_true]
      constructor
      · rintro ⟨hb, hrest⟩ i hi hbi
        cases i with
        | zero =>
          simp only [List.getD_cons_zero] at hbi ⊢
          rw [hbi] at hb
          simpa using hb
        | succ n =>
          simp only [List.getD_cons_zero, List.getD_cons_succ] at hbi ⊢
          exact (ih bs).mp hrest n (by simpa using hi) hbi
      · intro h
        constructor
        · cases hb : b
          · simp
          · have := h 0 (by simp) (by simp [hb])
            simpa using this
        · refine (ih bs).mpr (fun i hi hbi => ?_)
          have := h (i + 1) (by simpa using Nat.succ_lt_succ hi) (by simpa using hbi)
          simpa using this

theorem selected_count_pos_iff (a : App) :
    0 < a.selected_count ↔
      ∃ i, i < a.selected.length ∧ a.selected.getD i false = true := by
  unfold App.selected_count
  rw [List.count_pos_iff]
  constructor
  · intro h
    obtain ⟨i, hi, hget⟩ := List.mem_iff_getElem.mp h
    exact ⟨i, hi, by rw [List.getD_eq_getElem _ _ hi, hget]⟩
  · rintro ⟨i, hi, hget⟩
    rw [List.getD_eq_getElem _ _ hi] at hget
    exact List.mem_iff_getElem.mpr ⟨i, hi, hget⟩

/-! ### Helper lemmas: the captured selection and its event trace -/

theorem captureAux_mem : ∀ (rs : List Repo) (sel : List Bool) (i : Nat) (p : Nat × List Char),
    p ∈ captureAux sel i rs →
      i ≤ p.1 ∧ p.1 < i + rs.length ∧ sel.getD p.1 false = true := by
  intro rs
  induction rs with
  | nil =>
    intro sel i p h
    simp [captureAux] at h
  | cons r rest ih =>
    intro sel i p h
    simp only [captureAux] at h
    split_ifs at h with hsel
    · rcases List.mem_cons.mp h with rfl | h2
      · exact ⟨Nat.le_refl _, by simp, hsel⟩
      · have h3 := ih sel (i + 1) p h2
        refine ⟨by omega, ?_, h3.2.2⟩
        have := h3.2.1
        simp only [List.length_cons]
        omega
    · have h3 := ih sel (i + 1) p h
      refine ⟨by omega, ?_, h3.2.2⟩
      have := h3.2.1
      simp only [List.length_cons]
      omega

theorem captureAux_exists : ∀ (rs : List Repo) (sel : List Bool) (i j : Nat),
    j < rs.length → sel.getD (i + j) false = true →
      ∃ nm, (i + j, nm) ∈ captureAux sel i rs := by
  intro rs
  induction rs with
  | nil =>
    intro sel i j h
    simp at h
  | cons r rest ih =>
    intro sel i j hj hsel
    cases j with
    | zero =>
      rw [Nat.add_zero] at hsel ⊢
      refine ⟨r.name, ?_⟩
      simp only [captureAux, if_pos hsel]
      simp
    | succ n =>
      have heq : i + (n + 1) = (i + 1) + n := by omega
      rw [heq] at hsel ⊢
      obtain ⟨nm, hnm⟩ := ih sel (i + 1) n (by simpa using hj) hsel
      refine ⟨nm, ?_⟩
      simp only [captureAux]
      split_ifs <;> simp [hnm]

theorem captureAux_increasing : ∀ (rs : List Repo) (sel : List Bool) (i : Nat),
    (captureAux sel i rs).Pairwise (fun p q => p.1 < q.1) := by
  intro rs
  induction rs with
  | nil =>
    intro sel i
    simp [captureAux]
  | cons r rest ih =>
    intro sel i
    simp only [captureAux]
    split_ifs with hsel
    · refine List.pairwise_cons.mpr ⟨?_, ih sel (i + 1)⟩
      intro q hq
      have := (captureAux_mem rest sel (i + 1) q hq).1
      simp only
      omega
    · exact ih sel (i + 1)

theorem captureAux_not_mem : ∀ (rs : List Repo) (sel : List Bool) (i j : Nat),
    sel.getD j false = false → ∀ nm, (j, nm) ∉ captureAux sel i rs := by
  intro rs
  induction rs with
  | nil =>
    intro sel i j h nm
    simp [captureAux]
  | cons r rest ih =>
    intro sel i j h nm hmem
    simp only [captureAux] at hmem
    split_ifs at hmem with hsel
    · rcases List.mem_cons.mp hmem with heq | h2
      · rw [Prod.mk.injEq] at heq
        obtain ⟨rfl, -⟩ := heq
        rw [h] at hsel
        simp at hsel
      · exact ih sel (i + 1) j h nm h2
    · exact ih sel (i + 1) j h nm hmem

theorem eventsFor_runWorker_not_mem (d : Bool) (e : List Char → ExecResult) :
    ∀ (items : List (Nat × List Char)) (j : Nat), (∀ p ∈ items, p.1 ≠ j) →
      eventsFor j (runWorker d e items) = [] := by
  intro items
  induction items with
  | nil =>
    intro j h
    simp [runWorker, eventsFor]
  | cons hd tl ih =>
    intro j h
    rcases hd with ⟨idx, nm⟩
    rw [runWorker_cons]
    have hne : idx ≠ j := h (idx, nm) (by simp)
    unfold eventsFor
    rw [List.filter_cons_of_neg, List.filter_cons_of_neg]
    · exact ih j (fun p hp => h p (by simp [hp]))
    · rcases archiveOutcome_terminal d e idx nm with h1 | ⟨msg, h1⟩ <;>
        simp [h1, eventIdx, hne]
    · simp [eventIdx, hne]

theorem eventsFor_runWorker_mem (d : Bool) (e : List Char → ExecResult) :
    ∀ (items : List (Nat × List Char)) (j : Nat) (nm : List Char),
      items.Pairwise (fun p q => p.1 < q.1) → (j, nm) ∈ items →
      eventsFor j (runWorker d e items) =
        [ArchiveResult.started j, archiveOutcome d e j nm] := by
  intro items
  induction items with
  | nil =>
    intro j nm hp h
    simp at h
  | cons hd tl ih =>
    intro j nm hp hmem
    rcases hd with ⟨idx, n0⟩
    rw [runWorker_cons]
    rcases List.pairwise_cons.mp hp with ⟨hhead, htl⟩
    rcases List.mem_cons.mp hmem with heq | h2
    · rw [Prod.mk.injEq] at heq
      obtain ⟨rfl, rfl⟩ := heq
      have hrest : eventsFor j (runWorker d e tl) = [] :=
        eventsFor_runWorker_not_mem d e tl j
          (fun p hp2 => by have := hhead p hp2; omega)
      unfold eventsFor at hrest ⊢
      rw [List.filter_cons_of_pos (by simp [eventIdx]),
        List.filter_cons_of_pos (by
          rcases archiveOutcome_terminal d e j nm with h1 | ⟨msg, h1⟩ <;>
            simp [h1, eventIdx]),
        hrest]
    · have hidx : idx < j := hhead (j, nm) h2
      unfold eventsFor at ih ⊢
      rw [List.filter_cons_of_neg (by simp [eventIdx]; omega),
        List.filter_cons_of_neg (by
          rcases archiveOutcome_terminal d e idx n0 with h1 | ⟨msg, h1⟩ <;>
            simp [h1, eventIdx] <;> omega)]
      exact ih j nm htl h2

/-! ### Helper lemmas: classifying key transitions -/

theorem handleKey_cases (exec : List Char → ExecResult) (s s' : LoopState) (k : Key)
    (h : handleKey exec s k = StepResult.cont s') :
    s' = s
    ∨ s' = ⟨s.app.next, s.queue⟩
    ∨ s' = ⟨s.app.previous, s.queue⟩
    ∨ (s.app.mode = Mode.selecting ∧ s' = ⟨s.app.toggle_selection, s.queue⟩)
    ∨ (s.app.mode = Mode.selecting ∧ 0 < s.app.selected_count ∧
        s' = ⟨{ s.app with mode := Mode.confirmModal }, s.queue⟩)
    ∨ (s.app.mode = Mode.confirmModal ∧
        (s' = ⟨{ s.app with modal_button := 0 }, s.queue⟩
          ∨ s' = ⟨{ s.app with modal_button := 1 }, s.queue⟩
          ∨ s' = ⟨{ s.app with modal_button := 1 - s.app.modal_button }, s.queue⟩))
    ∨ (s.app.mode = Mode.confirmModal ∧ s' = acceptConfirm exec s)
    ∨ (s.app.mode = Mode.confirmModal ∧ s' = ⟨{ s.app with mode := Mode.selecting }, s.queue⟩) := by
  unfold handleKey at h
  cases hm : s.app.mode <;> rw [hm] at h <;> simp only [dispatchKey] at h
  case selecting =>
    cases k <;> simp only [selectingKey] at h <;>
      (try split_ifs at h) <;>
      first
        | exact StepResult.noConfusion h
        | (injection h with h; subst h; simp [hm, *])
  case confirmModal =>
    cases k <;> simp only [confirmKey] at h <;>
      (try split_ifs at h) <;>
      first
        | exact StepResult.noConfusion h
        | (injection h with h; subst h; simp [hm, *])
  case archiving =>
    cases k <;> simp only [archivingKey] at h <;>
      first
        | exact StepResult.noConfusion h
        | (injection h with h; subst h; simp [hm])
  case done =>
    cases k <;> simp only [doneKey] at h <;>
      first
        | exact StepResult.noConfusion h
        | (injection h with h; subst h; simp [hm])

/-! ### Helper lemmas: field bookkeeping for the loop transitions -/

theorem App.next_fields (a : App) :
    a.next.repos = a.repos ∧ a.next.statuses = a.statuses ∧ a.next.selected = a.selected ∧
      a.next.mode = a.mode ∧ a.next.modal_button = a.modal_button := by
  unfold App.next
  split_ifs <;> simp

theorem App.previous_fields (a : App) :
    a.previous.repos = a.repos ∧ a.previous.statuses = a.statuses ∧
      a.previous.selected = a.selected ∧ a.previous.mode = a.mode ∧
      a.previous.modal_button = a.modal_button := by
  unfold App.previous
  split_ifs <;> simp

theorem App.toggle_fields (a : App) :
    a.toggle_selection.repos = a.repos ∧ a.toggle_selection.statuses = a.statuses ∧
      a.toggle_selection.mode = a.mode ∧ a.toggle_selection.modal_button = a.modal_button ∧
      a.toggle_selection.selected.length = a.selected.length := by
  unfold App.toggle_selection
  cases hc : a.cursor <;> simp [List.length_set]

theorem applyEventStatuses_eq (a : App) (ev : ArchiveResult) :
    applyEventStatuses a ev =
      { a with statuses := a.statuses.set (eventIdx ev) (eventStatus ev) } := by
  cases ev <;> rfl

theorem acceptConfirm_app (exec : List Char → ExecResult) (s : LoopState) :
    (acceptConfirm exec s).app.repos = s.app.repos ∧
    (acceptConfirm exec s).app.statuses = markPending s.app.selected s.app.statuses ∧
    (acceptConfirm exec s).app.selected = s.app.selected ∧
    (acceptConfirm exec s).app.mode = Mode.archiving ∧
    (acceptConfirm exec s).app.modal_button = s.app.modal_button ∧
    (acceptConfirm exec s).queue =
      s.queue ++ runWorker s.app.dry_run exec (captureAux s.app.selected 0 s.app.repos) := by
  unfold acceptConfirm App.mark_selected_as_pending App.reposToArchive
  simp

theorem runWorker_mem_idx (d : Bool) (e : List Char → ExecResult) :
    ∀ (items : List (Nat × List Char)) (ev : ArchiveResult),
      ev ∈ runWorker d e items → ∃ p ∈ items, eventIdx ev = p.1 := by
  intro items
  induction items with
  | nil =>
    intro ev h
    simp [runWorker] at h
  | cons hd tl ih =>
    intro ev h
    rcases hd with ⟨idx, nm⟩
    rw [runWorker_cons] at h
    rcases List.mem_cons.mp h with rfl | h2
    · exact ⟨(idx, nm), by simp, rfl⟩
    rcases List.mem_cons.mp h2 with rfl | h3
    · refine ⟨(idx, nm), by simp, ?_⟩
      rcases archiveOutcome_terminal d e idx nm with h1 | ⟨msg, h1⟩ <;> rw [h1] <;> rfl
    · obtain ⟨p, hp, he⟩ := ih ev h3
      exact ⟨p, by simp [hp], he⟩

/-! ### The loop invariant is established and preserved -/

theorem inv_init (repos : List Repo) (dry : Bool) : LoopInv (initState repos dry) := by
  constructor
  · simp [initState, App.new]
  · simp [initState, App.new]
  · intro hmode
    exact ⟨rfl, fun st hst => List.eq_of_mem_replicate hst⟩
  · intro hmode
    simp [initState, App.new] at hmode
  · intro hmode
    simp [initState, App.new] at hmode
  · intro ev hev
    simp [initState] at hev
  · intro i
    left
    rfl

theorem inv_congr {s s2 : LoopState} (hInv : LoopInv s)
    (h1 : s2.app.repos.length = s.app.repos.length)
    (h2 : s2.app.statuses = s.app.statuses)
    (h3 : s2.app.selected = s.app.selected)
    (h4 : s2.app.mode = s.app.mode)
    (h5 : s2.queue = s.queue) : LoopInv s2 := by
  obtain ⟨l1, l2, bc, cn, ad, qi, ish⟩ := hInv
  constructor
  · rw [h1, h2]
    exact l1
  · rw [h1, h3]
    exact l2
  · rw [h4, h5, h2]
    exact bc
  · rw [h4]
    intro hm
    unfold App.selected_count
    rw [h3]
    exact cn hm
  · rw [h4]
    intro hm
    unfold App.is_all_done
    rw [h2, h3]
    exact ad hm
  · rw [h5, h2]
    exact qi
  · intro i
    rw [h5, h2]
    exact ish i

theorem inv_accept (exec : List Char → ExecResult) {s : LoopState} (hInv : LoopInv s)
    (hm : s.app.mode = Mode.confirmModal) : LoopInv (acceptConfirm exec s) := by
  obtain ⟨hq, hidle⟩ := hInv.browse_clean (Or.inr hm)
  have hcnt := hInv.confirm_nonempty hm
  obtain ⟨hrep, hsts, hsel, hmode, hbtn, hqueue⟩ := acceptConfirm_app exec s
  have hl1 := hInv.len_statuses
  have hl2 := hInv.len_selected
  have hinc := captureAux_increasing s.app.repos s.app.selected 0
  constructor
  · rw [hsts, hrep, length_markPending]
    exact hl1
  · rw [hsel, hrep]
    exact hl2
  · rw [hmode]
    rintro (hc | hc) <;> simp at hc
  · rw [hmode]
    intro hc
    simp at hc
  · rw [hmode]
    intro _
    obtain ⟨i, hilen, hisel⟩ := (selected_count_pos_iff s.app).mp hcnt
    unfold App.is_all_done
    rw [hsts, hsel, Bool.eq_false_iff]
    intro hall
    have hterm := (allDoneAux_eq_true_iff _ _).mp hall i
      (by rw [length_markPending]; omega) hisel
    rw [getD_markPending, if_pos ⟨hisel, by omega⟩] at hterm
    simp [RepoStatus.isTerminal] at hterm
  · intro ev hev
    rw [hqueue, hq, List.nil_append] at hev
    obtain ⟨p, hp, he⟩ := runWorker_mem_idx s.app.dry_run exec _ ev hev
    have hb := (captureAux_mem s.app.repos s.app.selected 0 p hp).2.1
    rw [hsts, length_markPending, hl1, he]
    omega
  · intro j
    rw [hqueue, hq, List.nil_append, hsts]
    by_cases hjsel : s.app.selected.getD j false = true
    · by_cases hjlen : j < s.app.repos.length
      · obtain ⟨nm, hnm⟩ := captureAux_exists s.app.repos s.app.selected 0 j hjlen
          (by simpa using hjsel)
        rw [Nat.zero_add] at hnm
        rw [eventsFor_runWorker_mem s.app.dry_run exec _ j nm hinc hnm]
        right
        refine ⟨archiveOutcome s.app.dry_run exec j nm,
          archiveOutcome_terminal s.app.dry_run exec j nm, Or.inl ⟨rfl, ?_⟩⟩
        rw [getD_markPending, if_pos ⟨hjsel, by omega⟩]
      · have hnj : ∀ p ∈ captureAux s.app.selected 0 s.app.repos, p.1 ≠ j := by
          intro p hp hc
          have := (captureAux_mem s.app.repos s.app.selected 0 p hp).2.1
          omega
        rw [eventsFor_runWorker_not_mem s.app.dry_run exec _ j hnj]
        left
        rfl
    · have hfalse : s.app.selected.getD j false = false := Bool.eq_false_iff.mpr hjsel
      have hnj : ∀ p ∈ captureAux s.app.selected 0 s.app.repos, p.1 ≠ j := by
        intro p hp hc
        have h3 := (captureAux_mem s.app.repos s.app.selected 0 p hp).2.2
        rw [hc, hfalse] at h3
        simp at h3
      rw [eventsFor_runWorker_not_mem s.app.dry_run exec _ j hnj]
      left
      rfl

theorem inv_key (exec : List Char → ExecResult) {s s' : LoopState} (hInv : LoopInv s)
    (k : Key) (h : handleKey exec s k = StepResult.cont s') : LoopInv s' := by
  rcases handleKey_cases exec s s' k h with rfl | rfl | rfl | ⟨hm, rfl⟩ | ⟨hm, hcnt, rfl⟩ |
    ⟨hm, rfl | rfl | rfl⟩ | ⟨hm, rfl⟩ | ⟨hm, rfl⟩
  · exact hInv
  · obtain ⟨f1, f2, f3, f4, -⟩ := App.next_fields s.app
    exact inv_congr hInv (by rw [f1]) f2 f3 f4 rfl
  · obtain ⟨f1, f2, f3, f4, -⟩ := App.previous_fields s.app
    exact inv_congr hInv (by rw [f1]) f2 f3 f4 rfl
  · obtain ⟨f1, f2, f3, f4, f5⟩ := App.toggle_fields s.app
    obtain ⟨hq, hidle⟩ := hInv.browse_clean (Or.inl hm)
    constructor
    · rw [f1, f2]
      exact hInv.len_statuses
    · rw [f1, f5]
      exact hInv.len_selected
    · intro _
      exact ⟨hq, by rw [f2]; exact hidle⟩
    · rw [f3, hm]
      intro hc
      simp at hc
    · rw [f3, hm]
      intro hc
      simp at hc
    · rw [f2]
      exact fun ev hev => hInv.queue_idx ev hev
    · intro i
      rw [f2]
      exact hInv.item_shape i
  · obtain ⟨hq, hidle⟩ := hInv.browse_clean (Or.inl hm)
    constructor
    · exact hInv.len_statuses
    · exact hInv.len_selected
    · intro _
      exact ⟨hq, hidle⟩
    · intro _
      exact hcnt
    · intro hc
      simp at hc
    · exact fun ev hev => hInv.queue_idx ev hev
    · exact hInv.item_shape
  · exact inv_congr hInv rfl rfl rfl rfl rfl
  · exact inv_congr hInv rfl rfl rfl rfl rfl
  · exact inv_congr hInv rfl rfl rfl rfl rfl
  · exact inv_accept exec hInv hm
  · obtain ⟨hq, hidle⟩ := hInv.browse_clean (Or.inr hm)
    constructor
    · exact hInv.len_statuses
    · exact hInv.len_selected
    · intro _
      exact ⟨hq, hidle⟩
    · intro hc
      simp at hc
    · intro hc
      simp at hc
    · exact fun ev hev => hInv.queue_idx ev hev
    · exact hInv.item_shape

theorem eventsFor_cons_self (ev : ArchiveResult) (rest : List ArchiveResult) :
    eventsFor (eventIdx ev) (ev :: rest) = ev :: eventsFor (eventIdx ev) rest := by
  unfold eventsFor
  rw [List.filter_cons_of_pos]
  simp

theorem eventsFor_cons_ne {j : Nat} {ev : ArchiveResult} (h : eventIdx ev ≠ j)
    (rest : List ArchiveResult) : eventsFor j (ev :: rest) = eventsFor j rest := by
  unfold eventsFor
  rw [List.filter_cons_of_neg]
  simp [h]

theorem applyEvent_statuses (a : App) (ev : ArchiveResult) :
    (applyEvent a ev).statuses = a.statuses.set (eventIdx ev) (eventStatus ev) := by
  simp only [applyEvent]
  split_ifs <;> simp [applyEventStatuses_eq]

theorem applyEvent_repos (a : App) (ev : ArchiveResult) :
    (applyEvent a ev).repos = a.repos := by
  simp only [applyEvent]
  split_ifs <;> simp [applyEventStatuses_eq]

theorem applyEvent_selected (a : App) (ev : ArchiveResult) :
    (applyEvent a ev).selected = a.selected := by
  simp only [applyEvent]
  split_ifs <;> simp [applyEventStatuses_eq]

theorem applyEvent_button (a : App) (ev : ArchiveResult) :
    (applyEvent a ev).modal_button = a.modal_button := by
  simp only [applyEvent]
  split_ifs <;> simp [applyEventStatuses_eq]

theorem applyEvent_mode (a : App) (ev : ArchiveResult) :
    (applyEvent a ev).mode = a.mode ∨ (applyEvent a ev).mode = Mode.done := by
  simp only [applyEvent]
  split_ifs <;> simp [applyEventStatuses_eq]

theorem applyEvent_arch_not_done (a : App) (ev : ArchiveResult)
    (h : (applyEvent a ev).mode = Mode.archiving) :
    (applyEvent a ev).is_all_done = false := by
  by_cases hc : (applyEventStatuses a ev).is_all_done = true
  · exfalso
    have hdone : (applyEvent a ev).mode = Mode.done := by
      simp only [applyEvent]
      rw [if_pos hc]
    rw [h] at hdone
    simp at hdone
  · have heq : applyEvent a ev = applyEventStatuses a ev := by
      simp only [applyEvent]
      rw [if_neg hc]
    rw [heq]
    exact Bool.eq_false_iff.mpr hc

theorem inv_drain {s : LoopState} (hInv : LoopInv s) : LoopInv (drainOne s) := by
  rcases hq : s.queue with _ | ⟨ev, rest⟩
  · simp only [drainOne, hq]
    exact hInv
  · have hmode : s.app.mode = Mode.archiving ∨ s.app.mode = Mode.done := by
      rcases hmm : s.app.mode with _ | _ | _ | _
      · obtain ⟨hq2, -⟩ := hInv.browse_clean (Or.inl hmm)
        rw [hq] at hq2
        simp at hq2
      · obtain ⟨hq2, -⟩ := hInv.browse_clean (Or.inr hmm)
        rw [hq] at hq2
        simp at hq2
      · exact Or.inl rfl
      · exact Or.inr rfl
    have hdrain : drainOne s = ⟨applyEvent s.app ev, rest⟩ := by
      simp [drainOne, hq]
    rw [hdrain]
    have hbound : eventIdx ev < s.app.statuses.length :=
      hInv.queue_idx ev (by rw [hq]; simp)
    have hshape := hInv.item_shape (eventIdx ev)
    rw [hq, eventsFor_cons_self] at hshape
    have hmode2 := applyEvent_mode s.app ev
    constructor
    · rw [applyEvent_statuses, applyEvent_repos, List.length_set]
      exact hInv.len_statuses
    · rw [applyEvent_selected, applyEvent_repos]
      exact hInv.len_selected
    · rintro (hc | hc) <;>
        rcases hmode2 with hm2 | hm2 <;> rw [hc] at hm2 <;>
        first
          | simp at hm2
          | (rcases hmode with hm3 | hm3 <;> rw [hm3] at hm2 <;> simp at hm2)
    · intro hc
      rcases hmode2 with hm2 | hm2 <;> rw [hc] at hm2 <;>
        first
          | (rcases hmode with hm3 | hm3 <;> rw [hm3] at hm2 <;> simp at hm2)
          | simp at hm2
    · exact applyEvent_arch_not_done s.app ev
    · intro ev2 hev2
      rw [applyEvent_statuses, List.length_set]
      exact hInv.queue_idx ev2 (by rw [hq]; simp [hev2])
    · intro j
      rw [applyEvent_statuses]
      dsimp only
      by_cases hj : j = eventIdx ev
      · subst hj
        rcases hshape with habs | ⟨t, hterm, hcase⟩
        · simp at habs
        rcases hcase with ⟨hevs, hst⟩ | ⟨hevs, hst⟩
        · rw [List.cons_eq_cons] at hevs
          obtain ⟨hev_eq, hrest⟩ := hevs
          have hstat : eventStatus ev = RepoStatus.archiving := by
            rw [hev_eq]
            rfl
          rw [getD_set_self hbound, hstat, hrest]
          right
          exact ⟨t, hterm, Or.inr ⟨rfl, rfl⟩⟩
        · rw [List.cons_eq_cons] at hevs
          rw [hevs.2]
          left
          rfl
      · have hne : eventIdx ev ≠ j := fun hc => hj hc.symm
        rw [getD_set_ne hj]
        have := hInv.item_shape j
        rw [hq, eventsFor_cons_ne hne] at this
        exact this

theorem getD_of_le_length {α : Type} {l : List α} {i : Nat} {d : α} (h : l.length ≤ i) :
    l.getD i d = d := by
  induction l generalizing i with
  | nil => simp
  | cons a as ih =>
    cases i with
    | zero => simp at h
    | succ n =>
      simp only [List.getD_cons_succ]
      exact ih (by simpa using h)

theorem inv_step {exec : List Char → ExecResult} {s s' : LoopState} (hInv : LoopInv s)
    (hstep : Step exec s s') : LoopInv s' := by
  cases hstep with
  | key k h => exact inv_key exec hInv k h
  | recv => exact inv_drain hInv

theorem inv_reachable {exec : List Char → ExecResult} {repos : List Repo} {dry : Bool}
    {s : LoopState} (h : Reachable exec (initState repos dry) s) : LoopInv s := by
  induction h with
  | refl => exact inv_init repos dry
  | tail h hs ih => exact inv_step ih hs

theorem step_forward {exec : List Char → ExecResult} {s s' : LoopState} (hInv : LoopInv s)
    (hstep : Step exec s s') (i : Nat) :
    (statusAt s' i = statusAt s i ∨ StatusAdvances (statusAt s i) (statusAt s' i)) ∧
    ((statusAt s i).isTerminal = true → statusAt s' i = statusAt s i) := by
  cases hstep with
  | key k h =>
    rcases handleKey_cases exec s s' k h with rfl | rfl | rfl | ⟨hm, rfl⟩ | ⟨hm, hcnt, rfl⟩ |
      ⟨hm, rfl | rfl | rfl⟩ | ⟨hm, rfl⟩ | ⟨hm, rfl⟩
    · exact ⟨Or.inl rfl, fun _ => rfl⟩
    · have heq : statusAt ⟨s.app.next, s.queue⟩ i = statusAt s i := by
        unfold statusAt
        dsimp only
        rw [(App.next_fields s.app).2.1]
      exact ⟨Or.inl heq, fun _ => heq⟩
    · have heq : statusAt ⟨s.app.previous, s.queue⟩ i = statusAt s i := by
        unfold statusAt
        dsimp only
        rw [(App.previous_fields s.app).2.1]
      exact ⟨Or.inl heq, fun _ => heq⟩
    · have heq : statusAt ⟨s.app.toggle_selection, s.queue⟩ i = statusAt s i := by
        unfold statusAt
        dsimp only
        rw [(App.toggle_fields s.app).2.1]
      exact ⟨Or.inl heq, fun _ => heq⟩
    · exact ⟨Or.inl rfl, fun _ => rfl⟩
    · exact ⟨Or.inl rfl, fun _ => rfl⟩
    · exact ⟨Or.inl rfl, fun _ => rfl⟩
    · exact ⟨Or.inl rfl, fun _ => rfl⟩
    · obtain ⟨hq, hidle⟩ := hInv.browse_clean (Or.inr hm)
      have hsi : s.app.statuses.getD i RepoStatus.idle = RepoStatus.idle :=
        getD_of_all hidle i
      obtain ⟨-, hsts, -, -, -, -⟩ := acceptConfirm_app exec s
      have hsi2 : statusAt (acceptConfirm exec s) i =
          (markPending s.app.selected s.app.statuses).getD i RepoStatus.idle := by
        unfold statusAt
        rw [hsts]
      rw [hsi2, getD_markPending]
      unfold statusAt
      refine ⟨?_, by intro hterm; rw [hsi] at hterm; simp [RepoStatus.isTerminal] at hterm⟩
      by_cases hc : s.app.selected.getD i false = true ∧ i < s.app.statuses.length
      · rw [if_pos hc, hsi]
        exact Or.inr StatusAdvances.idle_pending
      · rw [if_neg hc]
        exact Or.inl rfl
    · exact ⟨Or.inl rfl, fun _ => rfl⟩
  | recv =>
    rcases hq : s.queue with _ | ⟨ev, rest⟩
    · have heq : drainOne s = s := by simp [drainOne, hq]
      rw [heq]
      exact ⟨Or.inl rfl, fun _ => rfl⟩
    · have hdrain : drainOne s = ⟨applyEvent s.app ev, rest⟩ := by simp [drainOne, hq]
      rw [hdrain]
      have hshape := hInv.item_shape (eventIdx ev)
      rw [hq, eventsFor_cons_self] at hshape
      have hbound : eventIdx ev < s.app.statuses.length :=
        hInv.queue_idx ev (by rw [hq]; simp)
      have hset : statusAt ⟨applyEvent s.app ev, rest⟩ i =
          (s.app.statuses.set (eventIdx ev) (eventStatus ev)).getD i RepoStatus.idle := by
        unfold statusAt
        dsimp only
        rw [applyEvent_statuses]
      rw [hset]
      by_cases hj : i = eventIdx ev
      · subst hj
        rw [getD_set_self hbound]
        rcases hshape with habs | ⟨t, hterm, hcase⟩
        · simp at habs
        rcases hcase with ⟨hevs, hst⟩ | ⟨hevs, hst⟩
        · rw [List.cons_eq_cons] at hevs
          have hstat : eventStatus ev = RepoStatus.archiving := by
            rw [hevs.1]
            rfl
          unfold statusAt
          rw [hst, hstat]
          exact ⟨Or.inr StatusAdvances.pending_archiving,
            by intro hterm2; simp [RepoStatus.isTerminal] at hterm2⟩
        · rw [List.cons_eq_cons] at hevs
          unfold statusAt
          rw [hst]
          refine ⟨?_, by intro hterm2; simp [RepoStatus.isTerminal] at hterm2⟩
          rcases hterm with h1 | ⟨msg, h1⟩
          · rw [hevs.1, h1]
            exact Or.inr StatusAdvances.archiving_done
          · rw [hevs.1, h1]
            exact Or.inr (StatusAdvances.archiving_failed msg)
      · rw [getD_set_ne hj]
        exact ⟨Or.inl rfl, fun _ => rfl⟩

/-- Claim C2: in every reachable state of the UI loop, one step (a key press
or applying one worker event) moves each item's status either not at all or
one step forward along `Idle → Pending → InProgress(Archiving) → {Done |
Failed}`; no step moves a status backward, and a terminal status (`Done` or
`Failed`) is never changed again. -/
theorem status_forward_only (exec : List Char → ExecResult) (repos : List Repo)
    (dry : Bool) (s s' : LoopState)
    (hr : Reachable exec (initState repos dry) s) (hstep : Step exec s s') (i : Nat) :
    (statusAt s' i = statusAt s i ∨ StatusAdvances (statusAt s i) (statusAt s' i)) ∧
    ((statusAt s i).isTerminal = true → statusAt s' i = statusAt s i) :=
  step_forward (inv_reachable hr) hstep i

/-- Witness for C2: the first event-drain step of the concrete run
`s6w → s7w` applies the worker's `Started` event. -/
theorem status_forward_only_witness :
    (statusAt s7w 0 = statusAt s6w 0 ∨ StatusAdvances (statusAt s6w 0) (statusAt s7w 0)) ∧
    ((statusAt s6w 0).isTerminal = true → statusAt s7w 0 = statusAt s6w 0) := by
  have h1 : Step execOK s0w s1w := Step.key Key.space (by decide)
  have h2 : Step execOK s1w s2w := Step.key Key.enter (by decide)
  have h3 : Step execOK s2w s6w := Step.key Key.charY (by decide)
  have hr : Reachable execOK (initState [repoA] false) s6w :=
    Reachable.tail (Reachable.tail (Reachable.tail Reachable.refl h1) h2) h3
  exact status_forward_only execOK [repoA] false s6w s7w hr Step.recv 0

/-- Claim C3: the confirm modal is unreachable with zero selected items
(every reachable state in `Mode.confirmModal` has a positive selection
count), and accepting Proceed (`y`) transitions to `Mode.archiving` with
every previously-selected item's status `Pending`, in particular not
`Idle`. -/
theorem confirm_modal_selection (exec : List Char → ExecResult) (repos : List Repo)
    (dry : Bool) (s : LoopState) (hr : Reachable exec (initState repos dry) s)
    (hm : s.app.mode = Mode.confirmModal) :
    0 < s.app.selected_count ∧
    handleKey exec s Key.charY = StepResult.cont (acceptConfirm exec s) ∧
    (acceptConfirm exec s).app.mode = Mode.archiving ∧
    ∀ i, s.app.selected.getD i false = true →
      (acceptConfirm exec s).app.statuses.getD i RepoStatus.idle = RepoStatus.pending ∧
      (acceptConfirm exec s).app.statuses.getD i RepoStatus.idle ≠ RepoStatus.idle := by
  have hInv := inv_reachable hr
  obtain ⟨-, hsts, -, hmode, -, -⟩ := acceptConfirm_app exec s
  refine ⟨hInv.confirm_nonempty hm, ?_, hmode, ?_⟩
  · unfold handleKey
    rw [hm]
    rfl
  · intro i hisel
    have hleni : i < s.app.selected.length := by
      by_contra hc
      rw [getD_of_le_length (Nat.le_of_not_lt hc)] at hisel
      exact Bool.noConfusion hisel
    have hlen2 : i < s.app.statuses.length := by
      have hst := hInv.len_statuses
      have hse := hInv.len_selected
      omega
    rw [hsts, getD_markPending, if_pos ⟨hisel, hlen2⟩]
    exact ⟨rfl, by decide⟩

/-- Witness for C3 at the concrete confirm-modal state `s2w`. -/
theorem confirm_modal_selection_witness :
    0 < s2w.app.selected_count ∧
    (acceptConfirm execOK s2w).app.mode = Mode.archiving ∧
    (acceptConfirm execOK s2w).app.statuses.getD 0 RepoStatus.idle = RepoStatus.pending := by
  have h1 : Step execOK s0w s1w := Step.key Key.space (by decide)
  have h2 : Step execOK s1w s2w := Step.key Key.enter (by decide)
  obtain ⟨hc, -, hmode, hp⟩ := confirm_modal_selection execOK [repoA] false s2w
    (Reachable.tail (Reachable.tail Reachable.refl h1) h2) (by decide)
  exact ⟨hc, hmode, (hp 0 (by decide)).1⟩

/-- Claim C4: a batch completes within the same drain cycle that applies the
last terminal event: in every reachable state whose mode is `Archiving` or
`Done`, if all statuses are terminal (`is_all_done`) the mode is already
`Done` — the loop never shows an all-terminal `Archiving` state. -/
theorem all_done_mode_done (exec : List Char → ExecResult) (repos : List Repo)
    (dry : Bool) (s : LoopState) (hr : Reachable exec (initState repos dry) s)
    (hm : s.app.mode = Mode.archiving ∨ s.app.mode = Mode.done)
    (hd : s.app.is_all_done = true) : s.app.mode = Mode.done := by
  rcases hm with hm | hm
  · have hfalse := (inv_reachable hr).archiving_not_done hm
    rw [hd] at hfalse
    exact Bool.noConfusion hfalse
  · exact hm

/-- Witness for C4 at the concrete fully-drained state `s8w`. -/
theorem all_done_mode_done_witness : s8w.app.mode = Mode.done := by
  have h1 : Step execOK s0w s1w := Step.key Key.space (by decide)
  have h2 : Step execOK s1w s2w := Step.key Key.enter (by decide)
  have h3 : Step execOK s2w s6w := Step.key Key.charY (by decide)
  have h4 : Step execOK s6w s7w := Step.recv
  have h5 : Step execOK s7w s8w := Step.recv
  have hr : Reachable execOK (initState [repoA] false) s8w :=
    Reachable.tail (Reachable.tail (Reachable.tail (Reachable.tail (Reachable.tail
      Reachable.refl h1) h2) h3) h4) h5
  exact all_done_mode_done execOK [repoA] false s8w hr (Or.inr (by decide)) (by decide)

/-- Claim C8 (amended): the highlighted modal button starts as Proceed
(`modal_button = 1` in the initial state) and is only ever changed by the
modal's own left/right/tab handling: keys handled outside
`Mode.confirmModal` preserve it, draining a worker event preserves it, and
the `Enter` that opens the modal from `Mode.selecting` carries it over
unchanged rather than re-initialising it. -/
theorem modal_button_behaviour (exec : List Char → ExecResult) (repos : List Repo)
    (dry : Bool) :
    (initState repos dry).app.modal_button = 1 ∧
    (∀ (s s' : LoopState) (k : Key), s.app.mode ≠ Mode.confirmModal →
      handleKey exec s k = StepResult.cont s' → s'.app.modal_button = s.app.modal_button) ∧
    (∀ s : LoopState, (drainOne s).app.modal_button = s.app.modal_button) ∧
    (∀ s : LoopState, s.app.mode = Mode.selecting → 0 < s.app.selected_count →
      handleKey exec s Key.enter =
        StepResult.cont ⟨{ s.app with mode := Mode.confirmModal }, s.queue⟩) := by
  refine ⟨rfl, ?_, ?_, ?_⟩
  · intro s s' k hne h
    rcases handleKey_cases exec s s' k h with rfl | rfl | rfl | ⟨hm, rfl⟩ |
        ⟨hm, hcnt, rfl⟩ | ⟨hm, -⟩ | ⟨hm, rfl⟩ | ⟨hm, rfl⟩
    · rfl
    · exact (App.next_fields s.app).2.2.2.2
    · exact (App.previous_fields s.app).2.2.2.2
    · exact (App.toggle_fields s.app).2.2.2.1
    · rfl
    · exact absurd hm hne
    · exact absurd hm hne
    · exact absurd hm hne
  · intro s
    rcases hq : s.queue with _ | ⟨ev, rest⟩
    · simp [drainOne, hq]
    · simp [drainOne, hq, applyEvent_button]
  · intro s hm hcnt
    unfold handleKey
    rw [hm]
    simp only [dispatchKey, selectingKey]
    rw [if_pos hcnt]

/-- Claim C8, counterexample: open the modal, move the highlight to Cancel,
cancel, and re-open the modal; the reachable state `s5w` is in
`Mode.confirmModal` with `modal_button = 0`, so the highlighted choice on
entering the modal is Cancel, not Proceed. -/
theorem modal_button_reentry_cancel :
    Reachable execOK (initState [repoA] false) s5w ∧
    s5w.app.mode = Mode.confirmModal ∧
    s5w.app.modal_button = 0 := by
  have h1 : Step execOK s0w s1w := Step.key Key.space (by decide)
  have h2 : Step execOK s1w s2w := Step.key Key.enter (by decide)
  have h3 : Step execOK s2w s3w := Step.key Key.left (by decide)
  have h4 : Step execOK s3w s4w := Step.key Key.esc (by decide)
  have h5 : Step execOK s4w s5w := Step.key Key.enter (by decide)
  exact ⟨Reachable.tail (Reachable.tail (Reachable.tail (Reachable.tail (Reachable.tail
    Reachable.refl h1) h2) h3) h4) h5, by decide, by decide⟩

/-- Witness for the amended C8 statement on the concrete run: the toggle key
preserves the button and `Enter` opens the modal carrying it over. -/
theorem modal_button_behaviour_witness :
    s1w.app.modal_button = s0w.app.modal_button ∧
    handleKey execOK s1w Key.enter = StepResult.cont s2w := by
  obtain ⟨-, hpres, -, hentry⟩ := modal_button_behaviour execOK [repoA] false
  exact ⟨hpres s0w s1w Key.space (by decide) (by decide), hentry s1w (by decide) (by decide)⟩
